import Mathlib

/-!
# Verification of the clap_autodoc dependency-aware documentation generator

A shallow embedding of `src/lib.rs`: the metadata model (`ClapAttrs`,
`FieldInfo`, `StructInfo`), the resolvability check
(`can_generate_immediately`), the expansion engine (`expand_nested_structs`),
the table renderer (`generate_flat_table`, `generate_grouped_table`), the
document updater (`update_target_file`) and the resolution driver
(`generate_config_docs`, `register_struct_definition`,
`try_process_pending_generations`).

File contents are modelled as `List Char` (markers are ASCII, so character
positions coincide with the byte positions used by Rust's `str::find` at
every slicing boundary that occurs).  The external case-conversion
collaborator (the heck crate) and the external table-layout collaborator
(the tabled crate) are modelled explicitly below, restricted to ASCII.
-/

/-! ## ASCII character classes and case mapping

Modelled from the spec: case-style string transformations are an external
collaborator (spec section 1 and section 4.3).  The implementation used by the
code is the heck crate; its word segmentation and per-word casing algorithm is
reproduced here, restricted to ASCII (Rust identifiers in practice).
-/

def isAsciiUpper (c : Char) : Bool := 65 ≤ c.toNat && c.toNat ≤ 90

def isAsciiLower (c : Char) : Bool := 97 ≤ c.toNat && c.toNat ≤ 122

def isAsciiDigit (c : Char) : Bool := 48 ≤ c.toNat && c.toNat ≤ 57

/-- Model of Rust's `char::is_alphanumeric` on ASCII input. -/
def isAlnumChar (c : Char) : Bool := isAsciiUpper c || isAsciiLower c || isAsciiDigit c

/-- Model of Rust's `char::to_lowercase` on ASCII input. -/
def toLowerChar (c : Char) : Char :=
  if isAsciiUpper c then Char.ofNat (c.toNat + 32) else c

/-- Model of Rust's `char::to_uppercase` on ASCII input. -/
def toUpperChar (c : Char) : Char :=
  if isAsciiLower c then Char.ofNat (c.toNat - 32) else c

/-! ## heck word segmentation

heck processes a string by splitting it on non-alphanumeric characters
(empty pieces contribute nothing) and then splitting each piece at
case-transition boundaries: after a lowercase-mode character followed by an
uppercase one, and before the last uppercase character of an uppercase run
that is followed by a lowercase character.  Characters that are neither
lowercase nor uppercase (digits) keep the previous mode.
-/

inductive WordMode
  | boundary
  | lowercase
  | uppercase
deriving DecidableEq

/-- The mode carried to the next character: lowercase and uppercase letters
set it, any other character keeps the previous mode. -/
def nextWordMode (mode : WordMode) (c : Char) : WordMode :=
  if isAsciiLower c then .lowercase
  else if isAsciiUpper c then .uppercase
  else mode

/-- One pass of heck's inner loop over a single alphanumeric piece.
`acc` is the word collected since the last boundary. -/
def splitCamelAux (mode : WordMode) (acc : List Char) : List Char → List (List Char)
  | [] => []
  | [c] => [acc ++ [c]]
  | c :: next :: rest =>
    if nextWordMode mode c = .lowercase ∧ isAsciiUpper next then
      (acc ++ [c]) :: splitCamelAux .boundary [] (next :: rest)
    else if mode = .uppercase ∧ isAsciiUpper c ∧ isAsciiLower next then
      acc :: splitCamelAux .boundary [c] (next :: rest)
    else
      splitCamelAux (nextWordMode mode c) (acc ++ [c]) (next :: rest)

def splitCamel (piece : List Char) : List (List Char) :=
  splitCamelAux .boundary [] piece

/-- Model of Rust's `str::split` on a character predicate: pieces between
separator characters, empty pieces included. -/
def splitSep (p : Char → Bool) : List Char → List (List Char)
  | [] => [[]]
  | c :: rest =>
    if p c then [] :: splitSep p rest
    else
      match splitSep p rest with
      | [] => [[c]]
      | w :: ws => (c :: w) :: ws

/-- The word list heck extracts from a string. -/
def wordsOf (s : List Char) : List (List Char) :=
  (splitSep (fun c => !isAlnumChar c) s).flatMap splitCamel

/-- Join words with a separator character (heck writes the separator before
every word except the first). -/
def joinSep (sep : Char) : List (List Char) → List Char
  | [] => []
  | [w] => w
  | w :: ws => w ++ sep :: joinSep sep ws

def lowerWord (w : List Char) : List Char := w.map toLowerChar

def upperWord (w : List Char) : List Char := w.map toUpperChar

/-- heck's `capitalize`: uppercase the first character, lowercase the rest. -/
def capitalizeWord : List Char → List Char
  | [] => []
  | c :: rest => toUpperChar c :: rest.map toLowerChar

def toSnakeCase (s : List Char) : List Char :=
  joinSep '_' ((wordsOf s).map lowerWord)

def toKebabCase (s : List Char) : List Char :=
  joinSep '-' ((wordsOf s).map lowerWord)

def toShoutySnakeCase (s : List Char) : List Char :=
  joinSep '_' ((wordsOf s).map upperWord)

def toShoutyKebabCase (s : List Char) : List Char :=
  joinSep '-' ((wordsOf s).map upperWord)

def toPascalCase (s : List Char) : List Char :=
  ((wordsOf s).map capitalizeWord).flatten

def toLowerCamelCase (s : List Char) : List Char :=
  match wordsOf s with
  | [] => []
  | w :: ws => lowerWord w ++ (ws.map capitalizeWord).flatten

/-! ## The metadata model (`ClapAttrs`, `FieldInfo`, `StructInfo`) -/

/-- Clap attributes for a field (`struct ClapAttrs` in lib.rs). -/
structure ClapAttrs where
  default_value : Option String
  default_value_t : Option String
  rename : Option String
  long : Option String
  short : Option Char
  flatten : Bool
  required : Bool
  skip : Bool
  help : Option String
  about : Option String
  env : Option String
deriving DecidableEq

/-- Information about a struct field (`struct FieldInfo` in lib.rs). -/
structure FieldInfo where
  name : String
  field_type : String
  doc_comment : Option String
  clap_attrs : ClapAttrs
  group : String
deriving DecidableEq

/-- `enum CaseStyle` in lib.rs. -/
inductive CaseStyle
  | Snake
  | Camel
  | Pascal
  | Kebab
  | ScreamingSnake
  | ScreamingKebab
deriving DecidableEq

/-- Information about the entire struct (`struct StructInfo` in lib.rs). -/
structure StructInfo where
  name : String
  fields : List FieldInfo
  clap_rename_all : Option CaseStyle
deriving DecidableEq

/-- `enum OutputFormat` in lib.rs. -/
inductive OutputFormat
  | Flat
  | Grouped
deriving DecidableEq

/-- Arguments of the `generate` attribute (`struct ConfigDocsArgs`). -/
structure ConfigDocsArgs where
  target : String
  format : OutputFormat
deriving DecidableEq

/-- A queued generation request (`struct PendingGeneration`). -/
structure PendingGeneration where
  struct_info : StructInfo
  args : ConfigDocsArgs
deriving DecidableEq

/-- `fn apply_field_name_transformation` in lib.rs (dispatches to heck). -/
def apply_field_name_transformation (field_name : String) (rename_all : Option CaseStyle) : String :=
  match rename_all with
  | some .Snake => String.mk (toSnakeCase field_name.data)
  | some .Camel => String.mk (toLowerCamelCase field_name.data)
  | some .Pascal => String.mk (toPascalCase field_name.data)
  | some .Kebab => String.mk (toKebabCase field_name.data)
  | some .ScreamingKebab => String.mk (toShoutyKebabCase field_name.data)
  | some .ScreamingSnake => String.mk (toShoutySnakeCase field_name.data)
  | none => field_name

/-! ## Registry and resolvability -/

/-- First-match lookup in a cons-based registry.  `register_struct_definition`
inserts by consing, so first-match lookup realizes `HashMap::insert`'s
overwrite-on-redeclare semantics. -/
def regLookup (key : String) : List (String × StructInfo) → Option StructInfo
  | [] => none
  | (k, v) :: rest => if k = key then some v else regLookup key rest

/-- `STRUCT_REGISTRY.contains_key`. -/
def regContains (reg : List (String × StructInfo)) (key : String) : Bool :=
  (regLookup key reg).isSome

/-- `fn can_generate_immediately` in lib.rs: for every field with the
`flatten` attribute, its declared type name must be a registry key. -/
def can_generate_immediately (reg : List (String × StructInfo)) (struct_info : StructInfo) : Bool :=
  struct_info.fields.all fun field =>
    !(field.clap_attrs.flatten && !regContains reg field.field_type)

/-- `fn get_registered_struct` in lib.rs. -/
def get_registered_struct (reg : List (String × StructInfo)) (struct_name : String) : Option StructInfo :=
  regLookup struct_name reg

/-- `fn type_to_string` in lib.rs on the `Type::Path` case: the `::`-joined
segments of the declared type path. -/
def type_to_string : List String → String
  | [] => ""
  | [seg] => seg
  | seg :: rest => seg ++ "::" ++ type_to_string rest

/-! ## Expansion engine -/

/-- The loop body of `fn expand_nested_structs` in lib.rs: the expanded
fields contributed by one field of the requesting struct (whose rename_all
is `rename_all`). -/
def expandFieldStep (reg : List (String × StructInfo)) (rename_all : Option CaseStyle)
    (field : FieldInfo) : List FieldInfo :=
  if field.clap_attrs.flatten then
    match get_registered_struct reg field.field_type with
    | some nested_struct =>
      nested_struct.fields.map fun nested_field =>
        { nested_field with
            group := field.field_type
            name := apply_field_name_transformation nested_field.name rename_all }
    | none =>
      [{ field with
           doc_comment := some ("Note: This field is flattened from " ++
             field.field_type ++ " (not registered)") }]
  else [field]

/-- `fn expand_nested_structs` in lib.rs. -/
def expand_nested_structs (reg : List (String × StructInfo)) (struct_info : StructInfo) : StructInfo :=
  { name := struct_info.name
    fields := struct_info.fields.flatMap (expandFieldStep reg struct_info.clap_rename_all)
    clap_rename_all := struct_info.clap_rename_all }

/-! ## Table renderer

The per-field cell derivation is from `generate_flat_table` /
`generate_grouped_table` in lib.rs.

Modelled from the spec: the final markdown layout is produced by the external
tabled crate (`Table::new(rows).with(Style::markdown())`), out of scope per
spec section 1; per section 6 it is a GitHub-flavored markdown table with the
stated column headers and column widths padded for alignment, which is what
`renderMarkdownTable` produces.
-/

/-- `struct FlatTableRow` in lib.rs. -/
structure FlatTableRow where
  field_name : String
  field_type : String
  required : String
  default : String
  details : String
  group : String
deriving DecidableEq

/-- `struct GroupedTableRow` in lib.rs. -/
structure GroupedTableRow where
  field_name : String
  field_type : String
  required : String
  default : String
  details : String
deriving DecidableEq

/-- The row built for one field by the loop body of `generate_flat_table`. -/
def flatRowOf (struct_info : StructInfo) (field : FieldInfo) : FlatTableRow :=
  { field_name := apply_field_name_transformation field.name struct_info.clap_rename_all
    field_type := field.field_type
    required :=
      if field.clap_attrs.default_value.isSome || field.clap_attrs.default_value_t.isSome
      then "No" else "Yes"
    default := (field.clap_attrs.default_value.or field.clap_attrs.default_value_t).getD "-"
    details := field.doc_comment.getD ""
    group := field.group }

/-- The row built for one field by the loop body of `generate_grouped_table`. -/
def groupedRowOf (struct_info : StructInfo) (field : FieldInfo) : GroupedTableRow :=
  { field_name := apply_field_name_transformation field.name struct_info.clap_rename_all
    field_type := field.field_type
    required :=
      if field.clap_attrs.default_value.isSome || field.clap_attrs.default_value_t.isSome
      then "No" else "Yes"
    default := (field.clap_attrs.default_value.or field.clap_attrs.default_value_t).getD "-"
    details := field.doc_comment.getD "" }

def padRight (s : String) (w : Nat) : String :=
  s ++ String.mk (List.replicate (w - s.length) ' ')

def mergeWidths (ws : List Nat) (cells : List String) : List Nat :=
  List.zipWith (fun w c => max w (String.length c)) ws cells

def columnWidths (headers : List String) (rows : List (List String)) : List Nat :=
  rows.foldl mergeWidths (headers.map String.length)

def mdCells (widths : List Nat) (cells : List String) : String :=
  "|" ++ String.join ((List.zipWith (fun w c => " " ++ padRight c w ++ " |") widths cells))

def mdDashes (widths : List Nat) : String :=
  "|" ++ String.join (widths.map fun w => String.mk (List.replicate (w + 2) '-') ++ "|")

/-- Markdown table with padded columns (model of tabled's markdown style). -/
def renderMarkdownTable (headers : List String) (rows : List (List String)) : String :=
  let widths := columnWidths headers rows
  String.intercalate "\n" (mdCells widths headers :: mdDashes widths :: rows.map (mdCells widths))

def flatRowCells (r : FlatTableRow) : List String :=
  [r.field_name, r.field_type, r.required, r.default, r.details, r.group]

def groupedRowCells (r : GroupedTableRow) : List String :=
  [r.field_name, r.field_type, r.required, r.default, r.details]

/-- `fn generate_flat_table` in lib.rs. -/
def generate_flat_table (struct_info : StructInfo) : String :=
  renderMarkdownTable ["Field Name", "Type", "Required", "Default", "Details", "Group"]
    ((struct_info.fields.map (flatRowOf struct_info)).map flatRowCells)

/-- The `IndexMap` grouping of `generate_grouped_table`: first-seen group
order, appending each field to its group's list. -/
def insertGroup : List (String × List FieldInfo) → FieldInfo → List (String × List FieldInfo)
  | [], f => [(f.group, [f])]
  | (g, fs) :: rest, f =>
    if g = f.group then (g, fs ++ [f]) :: rest else (g, fs) :: insertGroup rest f

def groupFields (fields : List FieldInfo) : List (String × List FieldInfo) :=
  fields.foldl insertGroup []

/-- `fn generate_grouped_table` in lib.rs. -/
def generate_grouped_table (struct_info : StructInfo) : String :=
  String.join ((groupFields struct_info.fields).map fun entry =>
    "## " ++ entry.1 ++ " Configuration\n\n" ++
      renderMarkdownTable ["Field Name", "Type", "Required", "Default", "Details"]
        ((entry.2.map (groupedRowOf struct_info)).map groupedRowCells) ++ "\n\n")

/-- `fn generate_markdown_table` in lib.rs. -/
def generate_markdown_table (struct_info : StructInfo) (config : ConfigDocsArgs) : String :=
  match config.format with
  | .Flat => generate_flat_table struct_info
  | .Grouped => generate_grouped_table struct_info

/-! ## Document updater -/

def startMarker : List Char := "[//]: # (CONFIG_DOCS_START)".data

def endMarker : List Char := "[//]: # (CONFIG_DOCS_END)".data

/-- Model of Rust's `str::find` for a substring needle: the position of the
first occurrence. -/
def findSub (needle : List Char) : List Char → Option Nat
  | [] => if needle.isPrefixOf ([] : List Char) then some 0 else none
  | c :: rest =>
    if needle.isPrefixOf (c :: rest) then some 0
    else (findSub needle rest).map (· + 1)

/-- The marker-splicing core of `fn update_target_file` in lib.rs, acting on
the content read from (or synthesized for) the target file. -/
def updateContent (content table : List Char) : List Char :=
  match findSub startMarker content, findSub endMarker content with
  | some start_pos, some end_pos =>
    content.take (start_pos + startMarker.length) ++
      '\n' :: '\n' :: table ++ '\n' :: '\n' :: content.drop end_pos
  | _, _ =>
    content ++ '\n' :: (startMarker ++ '\n' :: '\n' :: table ++ '\n' :: '\n' :: endMarker)

/-- `fn update_target_file` in lib.rs: `existing` is the current file content
(`none` when the target file does not exist); the result is the content
written back. -/
def update_target_file (existing : Option (List Char)) (table : List Char) : List Char :=
  updateContent (existing.getD (startMarker ++ '\n' :: '\n' :: endMarker)) table

/-! ## Resolution driver -/

/-- The file system visible to the driver: target path to file content. -/
def FileSystem : Type := String → Option (List Char)

/-- One `update_target_file` call performed against the file system. -/
def do_update (fs : FileSystem) (target : String) (table : String) : FileSystem :=
  fun p => if p = target then some (update_target_file (fs target) table.data) else fs p

/-- The driver's process-wide state: `STRUCT_REGISTRY`,
`FILE_PENDING_GENERATIONS`, and the file system acted upon. -/
structure DriverState where
  registry : List (String × StructInfo)
  pending : List (String × List PendingGeneration)
  fs : FileSystem

/-- `file_pending.entry(target).or_insert_with(Vec::new).push(pg)`. -/
def pendingPush : List (String × List PendingGeneration) → String → PendingGeneration →
    List (String × List PendingGeneration)
  | [], t, pg => [(t, [pg])]
  | (k, l) :: rest, t, pg =>
    if k = t then (k, l ++ [pg]) :: rest else (k, l) :: pendingPush rest t pg

/-- The per-target loop of `fn try_process_pending_generations`: drain the
queue, generating the now-resolvable requests in order and keeping the rest
in order. -/
def processQueue (reg : List (String × StructInfo)) :
    List PendingGeneration → FileSystem → FileSystem × List PendingGeneration
  | [], fs => (fs, [])
  | pg :: rest, fs =>
    if can_generate_immediately reg pg.struct_info then
      processQueue reg rest
        (do_update fs pg.args.target
          (generate_markdown_table (expand_nested_structs reg pg.struct_info) pg.args))
    else
      let r := processQueue reg rest fs
      (r.1, pg :: r.2)

/-- The sweep over every target path of the pending store. -/
def sweepAll (reg : List (String × StructInfo)) :
    List (String × List PendingGeneration) → FileSystem →
    FileSystem × List (String × List PendingGeneration)
  | [], fs => (fs, [])
  | (t, l) :: rest, fs =>
    let q := processQueue reg l fs
    let r := sweepAll reg rest q.1
    (r.1, (t, q.2) :: r.2)

/-- `fn try_process_pending_generations` in lib.rs: sweep every queue, then
retain only the non-empty entries. -/
def try_process_pending_generations (s : DriverState) : DriverState :=
  let r := sweepAll s.registry s.pending s.fs
  { registry := s.registry
    pending := r.2.filter fun e => !e.2.isEmpty
    fs := r.1 }

/-- `fn generate_config_docs` in lib.rs: generate now when resolvable, else
enqueue under the request's target path. -/
def generate_config_docs (s : DriverState) (struct_info : StructInfo) (args : ConfigDocsArgs) :
    DriverState :=
  if can_generate_immediately s.registry struct_info then
    { s with fs := (do_update s.fs args.target
        (generate_markdown_table (expand_nested_structs s.registry struct_info) args)) }
  else
    { s with pending := pendingPush s.pending args.target ⟨struct_info, args⟩ }

/-- `fn register_struct_definition` in lib.rs: insert into the registry, then
attempt every pending generation. -/
def register_struct_definition (s : DriverState) (struct_info : StructInfo) : DriverState :=
  try_process_pending_generations
    { s with registry := (struct_info.name, struct_info) :: s.registry }

/-- One source declaration as seen by the build: a `#[register]` struct or a
`#[generate(...)]` struct. -/
inductive Decl
  | reg (info : StructInfo)
  | gen (info : StructInfo) (args : ConfigDocsArgs)
deriving DecidableEq

def stepDecl (s : DriverState) : Decl → DriverState
  | .reg info => register_struct_definition s info
  | .gen info args => generate_config_docs s info args

/-- Process a declaration sequence in source order. -/
def runDecls (s : DriverState) (ds : List Decl) : DriverState :=
  ds.foldl stepDecl s

/-- The empty start-of-build state over a given file system. -/
def initState (fs0 : FileSystem) : DriverState :=
  { registry := [], pending := [], fs := fs0 }

/-! ## Shared helper lemmas -/

theorem string_data_append (a b : String) : (a ++ b).data = a.data ++ b.data := rfl

/-! ## C1: resolvability is exactly "every flattened field's type is registered" -/

/-- C1: `can_generate_immediately` returns true iff every field with the
flatten attribute set has its declared type name present as a key of the
registry; in particular a definition with no flattened fields is resolvable
regardless of registry contents. -/
theorem c1_resolvability (reg : List (String × StructInfo)) (info : StructInfo) :
    (can_generate_immediately reg info = true ↔
      ∀ f ∈ info.fields, f.clap_attrs.flatten = true → regContains reg f.field_type = true)
    ∧ ((∀ f ∈ info.fields, f.clap_attrs.flatten = false) →
      can_generate_immediately reg info = true) := by
  have hiff : can_generate_immediately reg info = true ↔
      ∀ f ∈ info.fields, f.clap_attrs.flatten = true → regContains reg f.field_type = true := by
    unfold can_generate_immediately
    rw [List.all_eq_true]
    constructor
    · intro h f hf hfl
      have hh := h f hf
      rw [hfl] at hh
      cases hc : regContains reg f.field_type with
      | true => rfl
      | false => rw [hc] at hh; simp at hh
    · intro h f hf
      cases hfl : f.clap_attrs.flatten with
      | false => simp [hfl]
      | true => simp [hfl, h f hf hfl]
  refine ⟨hiff, fun h => hiff.mpr fun f hf hfl => ?_⟩
  rw [h f hf] at hfl
  exact absurd hfl (by simp)

def exAttrs : ClapAttrs :=
  ⟨none, none, none, none, none, false, false, false, none, none, none⟩

def exField : FieldInfo := ⟨"host", "String", none, exAttrs, "Ex"⟩

def exInfo : StructInfo := ⟨"Ex", [exField], none⟩

theorem c1_resolvability_witness : can_generate_immediately [] exInfo = true :=
  (c1_resolvability [] exInfo).2 (by decide)

/-! ## C3: the Required column is the default-presence duality -/

/-- C3: in both table formats the Required cell is "No" iff a default literal
or default expression is present, "Yes" otherwise; the field's own `required`
attribute plays no role. -/
theorem c3_required_duality (info : StructInfo) (field : FieldInfo) :
    ((flatRowOf info field).required = "No" ↔
      (field.clap_attrs.default_value.isSome || field.clap_attrs.default_value_t.isSome) = true)
    ∧ ((flatRowOf info field).required = "Yes" ↔
      (field.clap_attrs.default_value.isSome || field.clap_attrs.default_value_t.isSome) = false)
    ∧ (groupedRowOf info field).required = (flatRowOf info field).required
    ∧ (∀ b : Bool,
        (flatRowOf info
            { field with clap_attrs := { field.clap_attrs with required := b } }).required
          = (flatRowOf info field).required
        ∧ (groupedRowOf info
            { field with clap_attrs := { field.clap_attrs with required := b } }).required
          = (groupedRowOf info field).required) := by
  cases hd : (field.clap_attrs.default_value.isSome || field.clap_attrs.default_value_t.isSome) with
  | true =>
    refine ⟨?_, ?_, ?_, fun b => ⟨?_, ?_⟩⟩ <;>
      simp [flatRowOf, groupedRowOf, hd]
  | false =>
    refine ⟨?_, ?_, ?_, fun b => ⟨?_, ?_⟩⟩ <;>
      simp [flatRowOf, groupedRowOf, hd]

/-! ## C9: multi-segment type paths can never resolve -/

theorem colon_mem_type_to_string (segs : List String) (h : 2 ≤ segs.length) :
    ':' ∈ (type_to_string segs).data := by
  match segs with
  | a :: b :: rest =>
    show ':' ∈ (a ++ "::" ++ type_to_string (b :: rest)).data
    rw [string_data_append, string_data_append]
    simp [String.data]

theorem regLookup_eq_none_of_colon (reg : List (String × StructInfo)) (key : String)
    (hkey : ':' ∈ key.data) (hreg : ∀ e ∈ reg, ':' ∉ e.1.data) :
    regLookup key reg = none := by
  induction reg with
  | nil => rfl
  | cons e rest ih =>
    have hne : ¬(e.1 = key) := fun h => (hreg e (by simp)) (h ▸ hkey)
    unfold regLookup
    simp only [hne, if_false]
    exact ih fun x hx => hreg x (List.mem_cons_of_mem _ hx)

/-- C9: registration keys the registry by bare identifiers while resolvability
looks up the full `::`-joined path; a flattened field whose declared type is a
multi-segment path yields a lookup key containing `:`, which matches no
registry key built from identifiers, so the containing definition is never
resolvable. -/
theorem c9_multisegment_flatten_unresolvable (reg : List (String × StructInfo))
    (info : StructInfo) (f : FieldInfo) (segs : List String)
    (hmem : f ∈ info.fields) (hfl : f.clap_attrs.flatten = true)
    (hty : f.field_type = type_to_string segs) (hlen : 2 ≤ segs.length)
    (hreg : ∀ e ∈ reg, ':' ∉ e.1.data) :
    ':' ∈ f.field_type.data
    ∧ regContains reg f.field_type = false
    ∧ can_generate_immediately reg info = false := by
  have hcolon : ':' ∈ f.field_type.data := hty ▸ colon_mem_type_to_string segs hlen
  have hnone : regLookup f.field_type reg = none :=
    regLookup_eq_none_of_colon reg f.field_type hcolon hreg
  have hcontains : regContains reg f.field_type = false := by
    unfold regContains
    rw [hnone]
    rfl
  refine ⟨hcolon, hcontains, ?_⟩
  cases hc : can_generate_immediately reg info with
  | false => rfl
  | true =>
    have := ((c1_resolvability reg info).1.mp hc) f hmem hfl
    rw [hcontains] at this
    exact absurd this (by simp)

def dbInfo : StructInfo := ⟨"DatabaseConfig", [], some .Kebab⟩

def pathField : FieldInfo :=
  ⟨"db", "db::DatabaseConfig", none,
    ⟨none, none, none, none, none, true, false, false, none, none, none⟩, "DatabaseConfig"⟩

def pathInfo : StructInfo := ⟨"App", [pathField], none⟩

theorem c9_multisegment_flatten_unresolvable_witness :
    ':' ∈ pathField.field_type.data
    ∧ regContains [("DatabaseConfig", dbInfo)] pathField.field_type = false
    ∧ can_generate_immediately [("DatabaseConfig", dbInfo)] pathInfo = false :=
  c9_multisegment_flatten_unresolvable [("DatabaseConfig", dbInfo)] pathInfo pathField
    ["db", "DatabaseConfig"] (by decide) (by decide) (by decide) (by decide) (by decide)

/-! ## C10: the skip attribute has no effect on output -/

/-- Rewrite one field's `skip` attribute. -/
def setSkipF (b : Bool) (f : FieldInfo) : FieldInfo :=
  { f with clap_attrs := { f.clap_attrs with skip := b } }

/-- Rewrite every field's `skip` attribute. -/
def setSkip (b : Bool) (info : StructInfo) : StructInfo :=
  { info with fields := info.fields.map (setSkipF b) }

def entryLen (e : String × List FieldInfo) : Nat := e.2.length

def entrySetSkip (b : Bool) (e : String × List FieldInfo) : String × List FieldInfo :=
  (e.1, e.2.map (setSkipF b))

theorem sum_insertGroup (acc : List (String × List FieldInfo)) (f : FieldInfo) :
    ((insertGroup acc f).map entryLen).sum = ((acc.map entryLen).sum) + 1 := by
  induction acc with
  | nil => simp [insertGroup, entryLen]
  | cons e rest ih =>
    unfold insertGroup
    by_cases h : e.1 = f.group
    · simp [h, entryLen]
      omega
    · simp [h, entryLen] at ih ⊢
      omega

theorem sum_groupFold (fields : List FieldInfo) (acc : List (String × List FieldInfo)) :
    ((fields.foldl insertGroup acc).map entryLen).sum
      = ((acc.map entryLen).sum) + fields.length := by
  induction fields generalizing acc with
  | nil => simp
  | cons f rest ih =>
    simp only [List.foldl_cons, ih (insertGroup acc f), sum_insertGroup, List.length_cons]
    omega

theorem insertGroup_setSkip (b : Bool) (f : FieldInfo) (acc : List (String × List FieldInfo)) :
    insertGroup (acc.map (entrySetSkip b)) (setSkipF b f)
      = (insertGroup acc f).map (entrySetSkip b) := by
  induction acc with
  | nil => rfl
  | cons e rest ih =>
    obtain ⟨g, fs⟩ := e
    by_cases h : g = f.group
    · show insertGroup ((g, fs.map (setSkipF b)) :: rest.map (entrySetSkip b)) (setSkipF b f)
        = (insertGroup ((g, fs) :: rest) f).map (entrySetSkip b)
      unfold insertGroup
      rw [if_pos (show g = (setSkipF b f).group from h), if_pos h]
      show (g, fs.map (setSkipF b) ++ [setSkipF b f]) :: rest.map (entrySetSkip b)
        = (g, (fs ++ [f]).map (setSkipF b)) :: rest.map (entrySetSkip b)
      rw [List.map_append]
      rfl
    · show insertGroup ((g, fs.map (setSkipF b)) :: rest.map (entrySetSkip b)) (setSkipF b f)
        = (insertGroup ((g, fs) :: rest) f).map (entrySetSkip b)
      unfold insertGroup
      rw [if_neg (show ¬g = (setSkipF b f).group from h), if_neg h]
      show (g, fs.map (setSkipF b)) :: insertGroup (rest.map (entrySetSkip b)) (setSkipF b f)
        = (g, fs.map (setSkipF b)) :: (insertGroup rest f).map (entrySetSkip b)
      rw [ih]

theorem groupFold_setSkip (b : Bool) (fields : List FieldInfo)
    (acc : List (String × List FieldInfo)) :
    (fields.map (setSkipF b)).foldl insertGroup (acc.map (entrySetSkip b))
      = (fields.foldl insertGroup acc).map (entrySetSkip b) := by
  induction fields generalizing acc with
  | nil => simp
  | cons f rest ih =>
    simp only [List.map_cons, List.foldl_cons]
    rw [insertGroup_setSkip b f acc, ih (insertGroup acc f)]

/-- C10: both renderers emit exactly one table row per field of the expanded
definition (fields with `skip` set included), and the rendered output is
unchanged under rewriting every field's `skip` attribute. -/
theorem c10_skip_no_effect (info : StructInfo) :
    (info.fields.map (flatRowOf info)).length = info.fields.length
    ∧ ((groupFields info.fields).map entryLen).sum = info.fields.length
    ∧ (∀ b : Bool,
        generate_flat_table (setSkip b info) = generate_flat_table info
        ∧ generate_grouped_table (setSkip b info) = generate_grouped_table info) := by
  refine ⟨List.length_map _ _, ?_, fun b => ⟨?_, ?_⟩⟩
  · have := sum_groupFold info.fields []
    simpa [groupFields] using this
  · unfold generate_flat_table setSkip
    simp only [List.map_map]
    rfl
  · unfold generate_grouped_table
    have hgf : groupFields (setSkip b info).fields
        = (groupFields info.fields).map (entrySetSkip b) := by
      unfold setSkip groupFields
      have := groupFold_setSkip b info.fields []
      simpa using this
    rw [hgf, List.map_map]
    congr 1
    apply List.map_congr_left
    intro e he
    show "## " ++ (entrySetSkip b e).1 ++ " Configuration\n\n" ++
      renderMarkdownTable ["Field Name", "Type", "Required", "Default", "Details"]
        (((entrySetSkip b e).2.map (groupedRowOf (setSkip b info))).map groupedRowCells)
      ++ "\n\n" = _
    unfold entrySetSkip
    simp only [List.map_map]
    rfl

/-! ## C2: expansion agrees with the spec's per-field description -/

theorem flatMapCongr {α β : Type} (l : List α) (f g : α → List β)
    (h : ∀ a ∈ l, f a = g a) : l.flatMap f = l.flatMap g := by
  induction l with
  | nil => rfl
  | cons a rest ih =>
    simp only [List.flatMap_cons]
    rw [h a (by simp), ih fun x hx => h x (List.mem_cons_of_mem _ hx)]

theorem regLookup_mem (reg : List (String × StructInfo)) (key : String) (v : StructInfo)
    (h : regLookup key reg = some v) : (key, v) ∈ reg := by
  induction reg with
  | nil => cases h
  | cons e rest ih =>
    obtain ⟨k, w⟩ := e
    unfold regLookup at h
    by_cases hk : k = key
    · rw [if_pos hk] at h
      cases h
      rw [hk]
      exact List.mem_cons_self _ _
    · rw [if_neg hk] at h
      exact List.mem_cons_of_mem _ (ih h)

/-- The per-field expansion rule exactly as the spec words it (section 4.2):
keep a non-flattened field as-is; replace a flattened field whose referenced
type is registered by that record's fields in declared order, each with group
set to the referenced type's name (the name of the registered record) and
name transformed by the requesting record's case style; degrade a flattened
field with an unregistered reference to a single synthetic field whose
documentation explains the missing registration.  Declared only to be
compared against `expand_nested_structs`. -/
def specExpandField (reg : List (String × StructInfo)) (rename_all : Option CaseStyle)
    (field : FieldInfo) : List FieldInfo :=
  if field.clap_attrs.flatten = false then [field]
  else
    match regLookup field.field_type reg with
    | some nested_struct =>
      nested_struct.fields.map fun nested_field =>
        { nested_field with
            group := nested_struct.name
            name := apply_field_name_transformation nested_field.name rename_all }
    | none =>
      [{ field with
           doc_comment := some ("Note: This field is flattened from " ++
             field.field_type ++ " (not registered)") }]

/-- C2: on a registry whose entries are keyed by their own record name (which
`register_struct_definition` guarantees), `expand_nested_structs` performs
exactly the spec's one-level per-field expansion: non-flattened fields are
kept, flattened fields with a registered reference are replaced by the
referenced record's fields in declared order with group set to the referenced
type's name and name transformed by the requesting record's case style, and
flattened fields with a missing reference become a single synthetic
explanatory field.  Copied-in fields are not re-scanned. -/
theorem c2_expansion_matches_spec (reg : List (String × StructInfo)) (info : StructInfo)
    (hreg : ∀ e ∈ reg, e.2.name = e.1) :
    expand_nested_structs reg info
      = { name := info.name
          fields := info.fields.flatMap (specExpandField reg info.clap_rename_all)
          clap_rename_all := info.clap_rename_all } := by
  unfold expand_nested_structs
  have hfields : info.fields.flatMap (expandFieldStep reg info.clap_rename_all)
      = info.fields.flatMap (specExpandField reg info.clap_rename_all) := by
    apply flatMapCongr
    intro f hf
    unfold expandFieldStep specExpandField
    cases hfl : f.clap_attrs.flatten with
    | false => simp [hfl]
    | true =>
      simp only [hfl, if_true, Bool.true_eq_false, if_false]
      unfold get_registered_struct
      cases hlk : regLookup f.field_type reg with
      | none => rfl
      | some nested =>
        have hname : nested.name = f.field_type :=
          hreg (f.field_type, nested) (regLookup_mem reg f.field_type nested hlk)
        show (nested.fields.map fun nested_field =>
            { nested_field with
                group := f.field_type
                name := apply_field_name_transformation nested_field.name
                  info.clap_rename_all })
          = nested.fields.map fun nested_field =>
            { nested_field with
                group := nested.name
                name := apply_field_name_transformation nested_field.name
                  info.clap_rename_all }
        rw [hname]
  rw [hfields]

def dbWitness : StructInfo :=
  ⟨"DatabaseConfig",
    [⟨"postgres_host", "String", some "Database host", exAttrs, "DatabaseConfig"⟩],
    some .Kebab⟩

def appWitness : StructInfo :=
  ⟨"AppConfig",
    [⟨"verbose", "bool", none, exAttrs, "AppConfig"⟩,
     ⟨"db", "DatabaseConfig", none,
       ⟨none, none, none, none, none, true, false, false, none, none, none⟩, "DatabaseConfig"⟩,
     ⟨"redis", "RedisConfig", none,
       ⟨none, none, none, none, none, true, false, false, none, none, none⟩, "RedisConfig"⟩],
    some .Kebab⟩

theorem c2_expansion_matches_spec_witness :
    expand_nested_structs [("DatabaseConfig", dbWitness)] appWitness
      = { name := appWitness.name
          fields := appWitness.fields.flatMap
            (specExpandField [("DatabaseConfig", dbWitness)] appWitness.clap_rename_all)
          clap_rename_all := appWitness.clap_rename_all } :=
  c2_expansion_matches_spec [("DatabaseConfig", dbWitness)] appWitness (by decide)

/-! ## Substring occurrences and `findSub` characterization -/

theorem findSub_some_occurs (needle hay : List Char) (p : Nat)
    (h : findSub needle hay = some p) : needle <+: hay.drop p := by
  induction hay generalizing p with
  | nil =>
    unfold findSub at h
    by_cases hp : needle.isPrefixOf ([] : List Char)
    · rw [if_pos hp] at h
      cases h
      simpa [List.isPrefixOf_iff_prefix] using hp
    · rw [if_neg hp] at h
      cases h
  | cons c rest ih =>
    unfold findSub at h
    by_cases hp : needle.isPrefixOf (c :: rest)
    · rw [if_pos hp] at h
      cases h
      simpa [List.isPrefixOf_iff_prefix] using hp
    · rw [if_neg hp] at h
      cases hq : findSub needle rest with
      | none => rw [hq] at h; cases h
      | some q =>
        rw [hq] at h
        cases h
        simpa using ih q hq

theorem findSub_some_minimal (needle hay : List Char) (p : Nat)
    (h : findSub needle hay = some p) :
    ∀ q, q < p → ¬ needle <+: hay.drop q := by
  induction hay generalizing p with
  | nil =>
    unfold findSub at h
    by_cases hp : needle.isPrefixOf ([] : List Char)
    · rw [if_pos hp] at h
      cases h
      omega
    · rw [if_neg hp] at h
      cases h
  | cons c rest ih =>
    unfold findSub at h
    by_cases hp : needle.isPrefixOf (c :: rest)
    · rw [if_pos hp] at h
      cases h
      omega
    · rw [if_neg hp] at h
      cases hq : findSub needle rest with
      | none => rw [hq] at h; cases h
      | some q0 =>
        rw [hq] at h
        simp only [Option.map_some'] at h
        cases h
        intro q hlt
        cases q with
        | zero =>
          simpa [List.isPrefixOf_iff_prefix] using hp
        | succ q1 =>
          have := ih q0 hq q1 (by omega)
          simpa using this

theorem findSub_none_no_occurrence (needle hay : List Char)
    (h : findSub needle hay = none) :
    ∀ q, ¬ needle <+: hay.drop q := by
  induction hay with
  | nil =>
    unfold findSub at h
    by_cases hp : needle.isPrefixOf ([] : List Char)
    · rw [if_pos hp] at h; cases h
    · intro q hq
      rw [List.drop_nil] at hq
      rw [List.isPrefixOf_iff_prefix] at hp
      exact hp hq
  | cons c rest ih =>
    unfold findSub at h
    by_cases hp : needle.isPrefixOf (c :: rest)
    · rw [if_pos hp] at h; cases h
    · rw [if_neg hp] at h
      cases hq : findSub needle rest with
      | some q0 => rw [hq] at h; cases h
      | none =>
        intro q
        cases q with
        | zero =>
          simpa [List.isPrefixOf_iff_prefix] using hp
        | succ q1 =>
          simpa using ih hq q1

theorem findSub_of_occurs (needle hay : List Char) (p : Nat)
    (hocc : needle <+: hay.drop p) :
    ∃ q, q ≤ p ∧ findSub needle hay = some q := by
  induction hay generalizing p with
  | nil =>
    rw [List.drop_nil] at hocc
    refine ⟨0, Nat.zero_le _, ?_⟩
    unfold findSub
    rw [if_pos (List.isPrefixOf_iff_prefix.mpr hocc)]
  | cons c rest ih =>
    by_cases hp : needle.isPrefixOf (c :: rest)
    · refine ⟨0, Nat.zero_le _, ?_⟩
      unfold findSub
      rw [if_pos hp]
    · cases p with
      | zero =>
        rw [List.drop_zero] at hocc
        exact absurd (List.isPrefixOf_iff_prefix.mpr hocc) hp
      | succ p1 =>
        rw [List.drop_succ_cons] at hocc
        obtain ⟨q, hqle, hq⟩ := ih p1 hocc
        refine ⟨q + 1, by omega, ?_⟩
        unfold findSub
        rw [if_neg hp, hq]
        rfl

theorem occurs_length_le (needle hay : List Char) (p : Nat)
    (hne : needle ≠ []) (hocc : needle <+: hay.drop p) :
    p + needle.length ≤ hay.length := by
  have hlen : needle.length ≤ (hay.drop p).length := hocc.length_le
  rw [List.length_drop] at hlen
  have : 1 ≤ needle.length := by
    cases needle with
    | nil => exact absurd rfl hne
    | cons a l => simp
  omega

/-! ## C4: content outside the marker pair is preserved -/

/-- C4: when the target file's content contains both markers (start before
end), the update leaves the content up to the end of the start marker, and
the content from the (first occurrence of the) end marker to the end of the
file, byte-identical. -/
theorem c4_marker_containment (c table : List Char) (s e : Nat)
    (hs : findSub startMarker c = some s) (he : findSub endMarker c = some e)
    (_horder : s < e) :
    (update_target_file (some c) table).take (s + startMarker.length)
      = c.take (s + startMarker.length)
    ∧ (c.drop e) <:+ update_target_file (some c) table := by
  have hbound : s + startMarker.length ≤ c.length :=
    occurs_length_le startMarker c s (by decide) (findSub_some_occurs _ _ _ hs)
  have hupd : update_target_file (some c) table
      = c.take (s + startMarker.length) ++
          '\n' :: '\n' :: table ++ '\n' :: '\n' :: c.drop e := by
    unfold update_target_file updateContent
    rw [show (some c).getD (startMarker ++ '\n' :: '\n' :: endMarker) = c from rfl]
    rw [hs, he]
  constructor
  · have hlen1 : (c.take (s + startMarker.length)).length = s + startMarker.length := by
      rw [List.length_take]
      omega
    rw [hupd, List.append_assoc, List.take_append_eq_append_take, hlen1]
    simp [List.take_take]
  · rw [hupd]
    exact ⟨c.take (s + startMarker.length) ++ '\n' :: '\n' :: table ++ ['\n', '\n'], by simp⟩

def c4WitnessContent : List Char :=
  "# Docs\n\n[//]: # (CONFIG_DOCS_START)\n\nold\n\n[//]: # (CONFIG_DOCS_END)\ntrailer".data

theorem c4_marker_containment_witness :
    (update_target_file (some c4WitnessContent) "new".data).take (8 + startMarker.length)
      = c4WitnessContent.take (8 + startMarker.length)
    ∧ (c4WitnessContent.drop 42) <:+ update_target_file (some c4WitnessContent) "new".data :=
  c4_marker_containment c4WitnessContent "new".data 8 42 (by decide) (by decide) (by decide)

/-! ## C5 infrastructure: occurrences across newline boundaries -/

theorem findSub_eq_of_occurs_minimal (needle hay : List Char) (p : Nat)
    (hocc : needle <+: hay.drop p) (hmin : ∀ q, q < p → ¬ needle <+: hay.drop q) :
    findSub needle hay = some p := by
  obtain ⟨q, hqle, hq⟩ := findSub_of_occurs needle hay p hocc
  rcases Nat.lt_or_ge q p with hlt | hge
  · exact absurd (findSub_some_occurs needle hay q hq) (hmin q hlt)
  · have : q = p := by omega
    rw [this] at hq
    exact hq

theorem take_of_append_right {l : List Char} (a b : List Char)
    (h : l <+: a ++ b) (hk : l.length ≤ a.length) : l <+: a := by
  rw [List.prefix_iff_eq_take] at h ⊢
  rw [List.take_append_eq_append_take] at h
  rw [show l.length - a.length = 0 from by omega, List.take_zero, List.append_nil] at h
  exact h

theorem needle_length_pos {needle : List Char} (hne : needle ≠ []) : 1 ≤ needle.length := by
  cases needle with
  | nil => exact absurd rfl hne
  | cons a l => simp

/-- An occurrence of a newline-free needle in `X ++ '\n' :: Y` lies entirely
inside `X` or entirely inside `Y`. -/
theorem occurs_split_newline (needle X Y : List Char) (p : Nat)
    (hnl : '\n' ∉ needle) (hne : needle ≠ [])
    (hocc : needle <+: (X ++ '\n' :: Y).drop p) :
    (p + needle.length ≤ X.length ∧ needle <+: X.drop p)
    ∨ (X.length + 1 ≤ p ∧ needle <+: Y.drop (p - X.length - 1)) := by
  by_cases hsmall : p + needle.length ≤ X.length
  · left
    refine ⟨hsmall, ?_⟩
    have hdrop : (X ++ '\n' :: Y).drop p = X.drop p ++ '\n' :: Y := by
      rw [List.drop_append_eq_append_drop, show p - X.length = 0 from by omega, List.drop_zero]
    rw [hdrop] at hocc
    apply take_of_append_right (X.drop p) ('\n' :: Y) hocc
    rw [List.length_drop]
    omega
  · by_cases hmid : p ≤ X.length
    · exfalso
      have hdrop : (X ++ '\n' :: Y).drop p = X.drop p ++ '\n' :: Y := by
        rw [List.drop_append_eq_append_drop, show p - X.length = 0 from by omega, List.drop_zero]
      rw [hdrop, List.prefix_iff_eq_take, List.take_append_eq_append_take] at hocc
      have hlen : (X.drop p).length = X.length - p := List.length_drop _ _
      obtain ⟨m, hmm⟩ : ∃ m, needle.length - (X.drop p).length = m + 1 :=
        ⟨needle.length - (X.drop p).length - 1, by
          have := needle_length_pos hne
          rw [hlen]
          omega⟩
      apply hnl
      rw [hocc, hmm, List.take_succ_cons]
      simp
    · right
      have hp : X.length + 1 ≤ p := by omega
      refine ⟨hp, ?_⟩
      have hdrop : (X ++ '\n' :: Y).drop p = Y.drop (p - X.length - 1) := by
        rw [List.drop_append_eq_append_drop,
          List.drop_eq_nil_of_le (by omega : X.length ≤ p), List.nil_append]
        obtain ⟨m, hm'⟩ : ∃ m, p - X.length = m + 1 := ⟨p - X.length - 1, by omega⟩
        rw [hm', List.drop_succ_cons]
        simp
      rw [hdrop] at hocc
      exact hocc

/-- An occurrence of a newline-free nonempty needle in `'\n' :: Y` lies
inside `Y`. -/
theorem occurs_cons_newline (needle Y : List Char) (p : Nat)
    (hnl : '\n' ∉ needle) (hne : needle ≠ [])
    (hocc : needle <+: ('\n' :: Y).drop p) :
    1 ≤ p ∧ needle <+: Y.drop (p - 1) := by
  cases p with
  | zero =>
    exfalso
    rw [List.drop_zero, List.prefix_iff_eq_take] at hocc
    obtain ⟨m, hmm⟩ : ∃ m, needle.length = m + 1 :=
      ⟨needle.length - 1, by have := needle_length_pos hne; omega⟩
    apply hnl
    rw [hocc, hmm, List.take_succ_cons]
    simp
  | succ p1 =>
    rw [List.drop_succ_cons] at hocc
    exact ⟨by omega, by simpa using hocc⟩

/-- The canonical shape of the content written by the updater: a head ending
in the start marker, the spliced table, and a tail beginning with the end
marker. -/
def spliced (A T B : List Char) : List Char :=
  A ++ '\n' :: '\n' :: (T ++ '\n' :: '\n' :: B)

/-- An occurrence of a newline-free needle in `spliced A T B` lies entirely
inside `A`, `T`, or `B`. -/
theorem occurs_spliced_cases (needle A T B : List Char) (p : Nat)
    (hnl : '\n' ∉ needle) (hne : needle ≠ [])
    (hocc : needle <+: (spliced A T B).drop p) :
    (p + needle.length ≤ A.length ∧ needle <+: A.drop p)
    ∨ (A.length + 2 ≤ p ∧ needle <+: T.drop (p - A.length - 2))
    ∨ (A.length + 4 + T.length ≤ p ∧ needle <+: B.drop (p - A.length - 4 - T.length)) := by
  unfold spliced at hocc
  rcases occurs_split_newline needle A ('\n' :: (T ++ '\n' :: '\n' :: B)) p hnl hne hocc with
    ⟨hb1, h1⟩ | ⟨hb1, h1⟩
  · exact Or.inl ⟨hb1, h1⟩
  obtain ⟨hb2, h2⟩ := occurs_cons_newline needle (T ++ '\n' :: '\n' :: B) (p - A.length - 1)
    hnl hne h1
  rcases occurs_split_newline needle T ('\n' :: B) (p - A.length - 1 - 1) hnl hne h2 with
    ⟨hb3, h3⟩ | ⟨hb3, h3⟩
  · refine Or.inr (Or.inl ⟨by omega, ?_⟩)
    rw [show p - A.length - 2 = p - A.length - 1 - 1 from by omega]
    exact h3
  obtain ⟨hb4, h4⟩ := occurs_cons_newline needle B (p - A.length - 1 - 1 - T.length - 1) hnl hne h3
  refine Or.inr (Or.inr ⟨by omega, ?_⟩)
  rw [show p - A.length - 4 - T.length = p - A.length - 1 - 1 - T.length - 1 - 1 from by omega]
  exact h4

theorem occurs_spliced_left (needle A T B : List Char) (p : Nat)
    (hb : p + needle.length ≤ A.length) (hocc : needle <+: A.drop p) :
    needle <+: (spliced A T B).drop p := by
  unfold spliced
  rw [List.drop_append_eq_append_drop, show p - A.length = 0 from by omega, List.drop_zero]
  exact hocc.trans (List.prefix_append _ _)

theorem spliced_drop_shift (A T B : List Char) (q : Nat) :
    (spliced A T B).drop (A.length + 4 + T.length + q) = B.drop q := by
  unfold spliced
  rw [List.drop_append_eq_append_drop, List.drop_eq_nil_of_le (by omega), List.nil_append]
  rw [show A.length + 4 + T.length + q - A.length = (2 + T.length + q) + 1 + 1 from by omega]
  rw [List.drop_succ_cons, List.drop_succ_cons]
  rw [List.drop_append_eq_append_drop, List.drop_eq_nil_of_le (by omega), List.nil_append]
  rw [show 2 + T.length + q - T.length = q + 1 + 1 from by omega]
  rw [List.drop_succ_cons, List.drop_succ_cons]

theorem occurs_spliced_tail (A T B needle : List Char) (q : Nat)
    (hocc : needle <+: B.drop q) :
    needle <+: (spliced A T B).drop (A.length + 4 + T.length + q) := by
  rw [spliced_drop_shift]
  exact hocc

theorem spliced_take_head (A T B : List Char) : (spliced A T B).take A.length = A := by
  unfold spliced
  rw [List.take_append_eq_append_take, List.take_length, Nat.sub_self, List.take_zero,
    List.append_nil]

theorem spliced_drop_tail (A T B : List Char) :
    (spliced A T B).drop (A.length + 4 + T.length) = B := by
  have := spliced_drop_shift A T B 0
  simpa using this

theorem startMarker_ne_nil : startMarker ≠ [] := by decide

theorem endMarker_ne_nil : endMarker ≠ [] := by decide

theorem startMarker_no_newline : '\n' ∉ startMarker := by decide

theorem endMarker_no_newline : '\n' ∉ endMarker := by decide

/-- The shape invariant of any content the updater has just written:
`A` ends in the start marker (which occurs nowhere earlier in `A`), `B`
begins with the end marker, and the end marker occurs nowhere in `A`. -/
def GoodSplice (A B : List Char) : Prop :=
  startMarker.length ≤ A.length
  ∧ findSub startMarker A = some (A.length - startMarker.length)
  ∧ endMarker <+: B
  ∧ findSub endMarker A = none

/-- Re-running the updater on content of shape `spliced A T B` with the same
table `T` reproduces the content unchanged. -/
theorem updateContent_spliced_fixpoint (A T B : List Char) (hG : GoodSplice A B)
    (_hT1 : findSub startMarker T = none) (hT2 : findSub endMarker T = none) :
    updateContent (spliced A T B) T = spliced A T B := by
  obtain ⟨hlen, hsA, hB, hnoEA⟩ := hG
  have hs : findSub startMarker (spliced A T B) = some (A.length - startMarker.length) := by
    apply findSub_eq_of_occurs_minimal
    · exact occurs_spliced_left startMarker A T B _ (by omega)
        (findSub_some_occurs _ _ _ hsA)
    · intro q hq hocc
      rcases occurs_spliced_cases startMarker A T B q startMarker_no_newline
          startMarker_ne_nil hocc with ⟨hb, hx⟩ | ⟨hb, hx⟩ | ⟨hb, hx⟩
      · exact findSub_some_minimal _ _ _ hsA q hq hx
      · omega
      · omega
  have he : findSub endMarker (spliced A T B) = some (A.length + 4 + T.length) := by
    apply findSub_eq_of_occurs_minimal
    · have h0 : endMarker <+: B.drop 0 := by simpa using hB
      have := occurs_spliced_tail A T B endMarker 0 h0
      simpa using this
    · intro q hq hocc
      rcases occurs_spliced_cases endMarker A T B q endMarker_no_newline
          endMarker_ne_nil hocc with ⟨hb, hx⟩ | ⟨hb, hx⟩ | ⟨hb, hx⟩
      · exact findSub_none_no_occurrence _ _ hnoEA q hx
      · exact findSub_none_no_occurrence _ _ hT2 _ hx
      · omega
  unfold updateContent
  rw [hs, he]
  show (spliced A T B).take (A.length - startMarker.length + startMarker.length) ++
      '\n' :: '\n' :: T ++ '\n' :: '\n' :: (spliced A T B).drop (A.length + 4 + T.length)
    = spliced A T B
  rw [show A.length - startMarker.length + startMarker.length = A.length from by omega]
  rw [spliced_take_head, spliced_drop_tail]
  unfold spliced
  simp

theorem take_isPrefix (l : List Char) (n : Nat) : l.take n <+: l :=
  ⟨l.drop n, List.take_append_drop n l⟩

/-- First-run shape when the target file does not exist. -/
theorem update_none_shape (T : List Char) :
    update_target_file none T = spliced startMarker T endMarker := by
  unfold update_target_file updateContent
  rw [show (none : Option (List Char)).getD (startMarker ++ '\n' :: '\n' :: endMarker)
      = startMarker ++ '\n' :: '\n' :: endMarker from rfl]
  rw [show findSub startMarker (startMarker ++ '\n' :: '\n' :: endMarker) = some 0 from by decide]
  rw [show findSub endMarker (startMarker ++ '\n' :: '\n' :: endMarker) = some 29 from by decide]
  show (startMarker ++ '\n' :: '\n' :: endMarker).take (0 + startMarker.length) ++
      '\n' :: '\n' :: T ++ '\n' :: '\n' :: (startMarker ++ '\n' :: '\n' :: endMarker).drop 29
    = spliced startMarker T endMarker
  rw [show (startMarker ++ '\n' :: '\n' :: endMarker).take (0 + startMarker.length)
      = startMarker from by decide]
  rw [show (startMarker ++ '\n' :: '\n' :: endMarker).drop 29 = endMarker from by decide]
  unfold spliced
  simp

theorem goodSplice_markers : GoodSplice startMarker endMarker :=
  ⟨by decide, by decide, List.prefix_rfl, by decide⟩

/-- First-run shape when the file contains both markers, start before end. -/
theorem update_some_markers_shape (c T : List Char) (s e : Nat)
    (hs : findSub startMarker c = some s) (he : findSub endMarker c = some e)
    (hord : s + startMarker.length ≤ e) :
    update_target_file (some c) T = spliced (c.take (s + startMarker.length)) T (c.drop e)
    ∧ GoodSplice (c.take (s + startMarker.length)) (c.drop e) := by
  have hoccS : startMarker <+: c.drop s := findSub_some_occurs _ _ _ hs
  have hbound : s + startMarker.length ≤ c.length :=
    occurs_length_le _ _ _ startMarker_ne_nil hoccS
  have hlenA : (c.take (s + startMarker.length)).length = s + startMarker.length := by
    rw [List.length_take]
    omega
  constructor
  · unfold update_target_file updateContent
    rw [show (some c).getD (startMarker ++ '\n' :: '\n' :: endMarker) = c from rfl]
    rw [hs, he]
    show c.take (s + startMarker.length) ++
        '\n' :: '\n' :: T ++ '\n' :: '\n' :: c.drop e
      = spliced (c.take (s + startMarker.length)) T (c.drop e)
    unfold spliced
    simp
  · refine ⟨?_, ?_, findSub_some_occurs _ _ _ he, ?_⟩
    · omega
    · rw [hlenA, show s + startMarker.length - startMarker.length = s from by omega]
      apply findSub_eq_of_occurs_minimal
      · rw [List.drop_take]
        have heq : startMarker = (c.drop s).take startMarker.length :=
          List.prefix_iff_eq_take.mp hoccS
        rw [show s + startMarker.length - s = startMarker.length from by omega, ← heq]
      · intro q hq hocc
        rw [List.drop_take] at hocc
        have hcq : startMarker <+: c.drop q := hocc.trans (take_isPrefix _ _)
        exact findSub_some_minimal _ _ _ hs q hq hcq
    · cases hfe : findSub endMarker (c.take (s + startMarker.length)) with
      | none => rfl
      | some q =>
        exfalso
        have hocc := findSub_some_occurs _ _ _ hfe
        rw [List.drop_take] at hocc
        have hcq : endMarker <+: c.drop q := hocc.trans (take_isPrefix _ _)
        have hlen2 : endMarker.length ≤ s + startMarker.length - q := by
          have h3 := hocc.length_le
          rw [List.length_take] at h3
          exact le_trans h3 (Nat.min_le_left _ _)
        have hqe : q < e := by
          have := needle_length_pos endMarker_ne_nil
          omega
        exact findSub_some_minimal _ _ _ he q hqe hcq

/-- First-run shape when the file exists but contains neither marker. -/
theorem update_some_nomarkers_shape (c T : List Char)
    (hs : findSub startMarker c = none) (he : findSub endMarker c = none) :
    update_target_file (some c) T = spliced (c ++ '\n' :: startMarker) T endMarker
    ∧ GoodSplice (c ++ '\n' :: startMarker) endMarker := by
  constructor
  · unfold update_target_file updateContent
    rw [show (some c).getD (startMarker ++ '\n' :: '\n' :: endMarker) = c from rfl]
    rw [hs, he]
    show c ++ '\n' :: (startMarker ++ '\n' :: '\n' :: T ++ '\n' :: '\n' :: endMarker)
      = spliced (c ++ '\n' :: startMarker) T endMarker
    unfold spliced
    simp
  · have hlenA : (c ++ '\n' :: startMarker).length = c.length + 1 + startMarker.length := by
      rw [List.length_append, List.length_cons]
      omega
    refine ⟨?_, ?_, List.prefix_rfl, ?_⟩
    · omega
    · rw [hlenA,
        show c.length + 1 + startMarker.length - startMarker.length = c.length + 1 from by omega]
      apply findSub_eq_of_occurs_minimal
      · have hdrop : (c ++ '\n' :: startMarker).drop (c.length + 1) = startMarker := by
          rw [List.drop_append_eq_append_drop, List.drop_eq_nil_of_le (by omega),
            List.nil_append,
            show c.length + 1 - c.length = 0 + 1 from by omega, List.drop_succ_cons,
            List.drop_zero]
        rw [hdrop]
      · intro q hq hocc
        rcases occurs_split_newline startMarker c startMarker q startMarker_no_newline
            startMarker_ne_nil hocc with ⟨hb, hx⟩ | ⟨hb, hx⟩
        · exact findSub_none_no_occurrence _ _ hs q hx
        · omega
    · cases hfe : findSub endMarker (c ++ '\n' :: startMarker) with
      | none => rfl
      | some q =>
        exfalso
        have hocc := findSub_some_occurs _ _ _ hfe
        rcases occurs_split_newline endMarker c startMarker q endMarker_no_newline
            endMarker_ne_nil hocc with ⟨hb, hx⟩ | ⟨hb, hx⟩
        · exact findSub_none_no_occurrence _ _ he q hx
        · exact findSub_none_no_occurrence _ _
            (show findSub endMarker startMarker = none from by decide) _ hx

/-- The amended precondition on an existing target file: it contains either
no occurrence of either marker, or both markers with the first start-marker
occurrence ending at or before the first end-marker occurrence begins. -/
def markersOrdered : Option (List Char) → Bool
  | none => true
  | some c =>
    match findSub startMarker c, findSub endMarker c with
    | none, none => true
    | some s, some e => decide (s + startMarker.length ≤ e)
    | _, _ => false

/-- C5 (amended): the updater is idempotent under identical input provided
the rendered content contains neither marker and the existing file, if any,
contains either no marker at all or both markers with the start marker
occurring (and ending) before the end marker begins. -/
theorem c5_idempotent_amended (existing : Option (List Char)) (T : List Char)
    (hT1 : findSub startMarker T = none) (hT2 : findSub endMarker T = none)
    (hbal : markersOrdered existing = true) :
    update_target_file (some (update_target_file existing T)) T
      = update_target_file existing T := by
  have key : ∃ A B, update_target_file existing T = spliced A T B ∧ GoodSplice A B := by
    cases existing with
    | none => exact ⟨startMarker, endMarker, update_none_shape T, goodSplice_markers⟩
    | some c =>
      simp only [markersOrdered] at hbal
      cases hfs : findSub startMarker c with
      | none =>
        cases hfe : findSub endMarker c with
        | none =>
          obtain ⟨h1, h2⟩ := update_some_nomarkers_shape c T hfs hfe
          exact ⟨_, _, h1, h2⟩
        | some e =>
          rw [hfs, hfe] at hbal
          simp at hbal
      | some s =>
        cases hfe : findSub endMarker c with
        | none =>
          rw [hfs, hfe] at hbal
          simp at hbal
        | some e =>
          rw [hfs, hfe] at hbal
          simp at hbal
          obtain ⟨h1, h2⟩ := update_some_markers_shape c T s e hfs hfe hbal
          exact ⟨_, _, h1, h2⟩
  obtain ⟨A, B, hEq, hG⟩ := key
  rw [hEq]
  show updateContent (spliced A T B) T = spliced A T B
  exact updateContent_spliced_fixpoint A T B hG hT1 hT2

theorem c5_idempotent_amended_witness :
    update_target_file (some (update_target_file none "table".data)) "table".data
      = update_target_file none "table".data :=
  c5_idempotent_amended none "table".data (by decide) (by decide) (by decide)

/-- The number of occurrences of a substring. -/
def countSub (needle hay : List Char) : Nat :=
  ((List.range (hay.length + 1)).filter fun p => needle.isPrefixOf (hay.drop p)).length

/-- A file whose end marker precedes its start marker (one occurrence each). -/
def c5BadContent : List Char := (endMarker ++ '\n' :: startMarker)

/-- C5 counterexample: the original claim fails on a file containing exactly
one occurrence of each marker with the end marker first.  The rendered
content (empty) contains neither marker, yet running the updater twice does
not reproduce the single-run output. -/
theorem c5_idempotence_counterexample :
    countSub startMarker c5BadContent = 1
    ∧ countSub endMarker c5BadContent = 1
    ∧ countSub startMarker [] = 0
    ∧ countSub endMarker [] = 0
    ∧ update_target_file (some (update_target_file (some c5BadContent) [])) []
        ≠ update_target_file (some c5BadContent) [] := by
  refine ⟨by decide, by decide, by decide, by decide, by decide⟩

/-! ## C7: the sweep writes resolvable requests and keeps the rest queued -/

/-- The single write performed for one satisfied request. -/
def writeFor (reg : List (String × StructInfo)) (fs : FileSystem) (pg : PendingGeneration) :
    FileSystem :=
  do_update fs pg.args.target
    (generate_markdown_table (expand_nested_structs reg pg.struct_info) pg.args)

theorem processQueue_spec (reg : List (String × StructInfo)) (l : List PendingGeneration)
    (fs : FileSystem) :
    processQueue reg l fs
      = ((l.filter fun pg => can_generate_immediately reg pg.struct_info).foldl
           (writeFor reg) fs,
         l.filter fun pg => !can_generate_immediately reg pg.struct_info) := by
  induction l generalizing fs with
  | nil => rfl
  | cons pg rest ih =>
    unfold processQueue
    cases hc : can_generate_immediately reg pg.struct_info with
    | true => simp [List.filter_cons, hc, ih, writeFor]
    | false => simp [List.filter_cons, hc, ih]

theorem sweepAll_spec (reg : List (String × StructInfo))
    (pending : List (String × List PendingGeneration)) (fs : FileSystem) :
    sweepAll reg pending fs
      = ((pending.flatMap fun e =>
            e.2.filter fun pg => can_generate_immediately reg pg.struct_info).foldl
           (writeFor reg) fs,
         pending.map fun e =>
           (e.1, e.2.filter fun pg => !can_generate_immediately reg pg.struct_info)) := by
  induction pending generalizing fs with
  | nil => rfl
  | cons e rest ih =>
    obtain ⟨t, l⟩ := e
    unfold sweepAll
    simp [processQueue_spec, ih, List.foldl_append]

/-- C7: after a sweep, the registry is unchanged; every queued request that
became resolvable has been expanded, rendered and written (in original
enqueue order) and removed from its target's queue; every still-unresolvable
request remains queued in original order; and every target-path key whose
queue became empty is removed from the pending store. -/
theorem c7_sweep_characterization (s : DriverState) :
    (try_process_pending_generations s).registry = s.registry
    ∧ (try_process_pending_generations s).pending
        = ((s.pending.map fun e =>
            (e.1, e.2.filter fun pg =>
              !can_generate_immediately s.registry pg.struct_info)).filter
            (fun e => !e.2.isEmpty))
    ∧ (try_process_pending_generations s).fs
        = (s.pending.flatMap fun e =>
            e.2.filter fun pg => can_generate_immediately s.registry pg.struct_info).foldl
            (writeFor s.registry) s.fs := by
  unfold try_process_pending_generations
  rw [sweepAll_spec]
  exact ⟨rfl, rfl, rfl⟩

/-! ## C6: idempotence of the case transformations -/

theorem isAsciiUpper_toLowerChar (c : Char) : isAsciiUpper (toLowerChar c) = false := by
  unfold toLowerChar
  by_cases h : isAsciiUpper c = true
  · rw [if_pos h]
    unfold isAsciiUpper at h ⊢
    simp only [Bool.and_eq_true, decide_eq_true_eq] at h
    obtain ⟨h1, h2⟩ := h
    generalize hn : c.toNat = n at h1 h2
    interval_cases n <;> decide
  · rw [if_neg h]
    simpa using h

theorem toLowerChar_idem (c : Char) : toLowerChar (toLowerChar c) = toLowerChar c := by
  have h := isAsciiUpper_toLowerChar c
  unfold toLowerChar at h ⊢
  by_cases hc : isAsciiUpper c = true
  · rw [if_pos hc] at h ⊢
    rw [if_neg (by rw [h]; exact Bool.false_ne_true)]
  · rw [if_neg hc] at h ⊢
    rw [if_neg (by rw [h]; exact Bool.false_ne_true)]

theorem isAlnumChar_toLowerChar (c : Char) (h : isAlnumChar c = true) :
    isAlnumChar (toLowerChar c) = true := by
  unfold toLowerChar
  by_cases hc : isAsciiUpper c = true
  · rw [if_pos hc]
    unfold isAsciiUpper at hc
    simp only [Bool.and_eq_true, decide_eq_true_eq] at hc
    obtain ⟨h1, h2⟩ := hc
    generalize hn : c.toNat = n at h1 h2
    interval_cases n <;> decide
  · rw [if_neg hc]
    exact h

theorem isAsciiLower_toUpperChar (c : Char) : isAsciiLower (toUpperChar c) = false := by
  unfold toUpperChar
  by_cases h : isAsciiLower c = true
  · rw [if_pos h]
    unfold isAsciiLower at h ⊢
    simp only [Bool.and_eq_true, decide_eq_true_eq] at h
    obtain ⟨h1, h2⟩ := h
    generalize hn : c.toNat = n at h1 h2
    interval_cases n <;> decide
  · rw [if_neg h]
    simpa using h

theorem toUpperChar_idem (c : Char) : toUpperChar (toUpperChar c) = toUpperChar c := by
  have h := isAsciiLower_toUpperChar c
  unfold toUpperChar at h ⊢
  by_cases hc : isAsciiLower c = true
  · rw [if_pos hc] at h ⊢
    rw [if_neg (by rw [h]; exact Bool.false_ne_true)]
  · rw [if_neg hc] at h ⊢
    rw [if_neg (by rw [h]; exact Bool.false_ne_true)]

theorem isAlnumChar_toUpperChar (c : Char) (h : isAlnumChar c = true) :
    isAlnumChar (toUpperChar c) = true := by
  unfold toUpperChar
  by_cases hc : isAsciiLower c = true
  · rw [if_pos hc]
    unfold isAsciiLower at hc
    simp only [Bool.and_eq_true, decide_eq_true_eq] at hc
    obtain ⟨h1, h2⟩ := hc
    generalize hn : c.toNat = n at h1 h2
    interval_cases n <;> decide
  · rw [if_neg hc]
    exact h

theorem splitCamelAux_no_upper (l : List Char) :
    ∀ (mode : WordMode) (acc : List Char), l ≠ [] →
      (∀ c ∈ l, isAsciiUpper c = false) →
      splitCamelAux mode acc l = [acc ++ l] := by
  induction l with
  | nil => intro mode acc h; exact absurd rfl h
  | cons c rest ih =>
    intro mode acc _ hchars
    cases rest with
    | nil => rfl
    | cons next rest2 =>
      have hnext : isAsciiUpper next = false := hchars next (by simp)
      have hc : isAsciiUpper c = false := hchars c (by simp)
      unfold splitCamelAux
      rw [if_neg (by rw [hnext]; exact fun hh => Bool.false_ne_true hh.2)]
      rw [if_neg (by rw [hc]; exact fun hh => Bool.false_ne_true hh.2.1)]
      rw [ih (nextWordMode mode c) (acc ++ [c]) (by simp)
        (fun x hx => hchars x (List.mem_cons_of_mem _ hx))]
      simp

theorem nextWordMode_ne_lower (mode : WordMode) (c : Char)
    (hc : isAsciiLower c = false) (hmode : mode ≠ .lowercase) :
    nextWordMode mode c ≠ .lowercase := by
  unfold nextWordMode
  rw [if_neg (by rw [hc]; exact Bool.false_ne_true)]
  by_cases hu : isAsciiUpper c = true
  · rw [if_pos hu]
    intro hh
    cases hh
  · rw [if_neg hu]
    exact hmode

theorem splitCamelAux_no_lower (l : List Char) :
    ∀ (mode : WordMode) (acc : List Char), l ≠ [] →
      (∀ c ∈ l, isAsciiLower c = false) → mode ≠ .lowercase →
      splitCamelAux mode acc l = [acc ++ l] := by
  induction l with
  | nil => intro mode acc h; exact absurd rfl h
  | cons c rest ih =>
    intro mode acc _ hchars hmode
    cases rest with
    | nil => rfl
    | cons next rest2 =>
      have hnext : isAsciiLower next = false := hchars next (by simp)
      have hc : isAsciiLower c = false := hchars c (by simp)
      unfold splitCamelAux
      rw [if_neg (fun hh => (nextWordMode_ne_lower mode c hc hmode) hh.1)]
      rw [if_neg (by rw [hnext]; exact fun hh => Bool.false_ne_true hh.2.2)]
      rw [ih (nextWordMode mode c) (acc ++ [c]) (by simp)
        (fun x hx => hchars x (List.mem_cons_of_mem _ hx))
        (nextWordMode_ne_lower mode c hc hmode)]
      simp

theorem splitCamelAux_words (l : List Char) (P : Char → Prop) :
    ∀ (mode : WordMode) (acc : List Char),
      (∀ c ∈ acc, P c) → (∀ c ∈ l, P c) → (mode = .uppercase → acc ≠ []) →
      ∀ w ∈ splitCamelAux mode acc l, w ≠ [] ∧ ∀ c ∈ w, P c := by
  induction l with
  | nil =>
    intro mode acc _ _ _ w hw
    cases hw
  | cons c rest ih =>
    intro mode acc hacc hchars hinv w hw
    cases rest with
    | nil =>
      unfold splitCamelAux at hw
      rw [List.mem_singleton] at hw
      subst hw
      refine ⟨by simp, fun x hx => ?_⟩
      rcases List.mem_append.mp hx with hx | hx
      · exact hacc x hx
      · rw [List.mem_singleton] at hx
        subst hx
        exact hchars x (by simp)
    | cons next rest2 =>
      have hcP : P c := hchars c (by simp)
      have hrestP : ∀ x ∈ next :: rest2, P x :=
        fun x hx => hchars x (List.mem_cons_of_mem _ hx)
      have haccP : ∀ x ∈ acc ++ [c], P x := by
        intro x hx
        rcases List.mem_append.mp hx with hx | hx
        · exact hacc x hx
        · rw [List.mem_singleton] at hx
          subst hx
          exact hcP
      unfold splitCamelAux at hw
      by_cases h1 : nextWordMode mode c = WordMode.lowercase ∧ isAsciiUpper next = true
      · rw [if_pos h1] at hw
        rcases List.mem_cons.mp hw with hw | hw
        · subst hw
          exact ⟨by simp, haccP⟩
        · exact ih .boundary [] (by simp) hrestP (by intro hh; cases hh) w hw
      · rw [if_neg h1] at hw
        by_cases h2 : mode = WordMode.uppercase ∧ isAsciiUpper c = true ∧ isAsciiLower next = true
        · rw [if_pos h2] at hw
          rcases List.mem_cons.mp hw with hw | hw
          · subst hw
            exact ⟨hinv h2.1, hacc⟩
          · exact ih .boundary [c] (fun x hx => by
                rw [List.mem_singleton] at hx
                subst hx
                exact hcP) hrestP (by intro hh; simp) w hw
        · rw [if_neg h2] at hw
          exact ih (nextWordMode mode c) (acc ++ [c]) haccP hrestP (by
            intro hh
            simp) w hw

theorem splitSep_all_clean (p : Char → Bool) (w : List Char)
    (h : ∀ c ∈ w, p c = false) : splitSep p w = [w] := by
  induction w with
  | nil => rfl
  | cons c rest ih =>
    unfold splitSep
    rw [if_neg (by rw [h c (by simp)]; exact Bool.false_ne_true)]
    rw [ih fun x hx => h x (List.mem_cons_of_mem _ hx)]

theorem splitSep_append_sep (p : Char → Bool) (w t : List Char) (sep : Char)
    (hw : ∀ c ∈ w, p c = false) (hsep : p sep = true) :
    splitSep p (w ++ sep :: t) = w :: splitSep p t := by
  induction w with
  | nil =>
    show splitSep p (sep :: t) = [] :: splitSep p t
    conv_lhs => rw [splitSep.eq_def]
    show (if p sep = true then [] :: splitSep p t
        else match splitSep p t with
             | [] => [[sep]]
             | w :: ws => (sep :: w) :: ws)
      = [] :: splitSep p t
    rw [if_pos hsep]
  | cons c rest ih =>
    show splitSep p (c :: (rest ++ sep :: t)) = (c :: rest) :: splitSep p t
    conv_lhs => rw [splitSep.eq_def]
    show (if p c = true then [] :: splitSep p (rest ++ sep :: t)
        else match splitSep p (rest ++ sep :: t) with
             | [] => [[c]]
             | w :: ws => (c :: w) :: ws)
      = (c :: rest) :: splitSep p t
    rw [if_neg (by rw [hw c (by simp)]; exact Bool.false_ne_true)]
    rw [ih fun x hx => hw x (List.mem_cons_of_mem _ hx)]

theorem splitSep_joinSep (p : Char → Bool) (sep : Char) (hsep : p sep = true)
    (chunks : List (List Char)) (hne : chunks ≠ [])
    (hclean : ∀ w ∈ chunks, ∀ c ∈ w, p c = false) :
    splitSep p (joinSep sep chunks) = chunks := by
  induction chunks with
  | nil => exact absurd rfl hne
  | cons w rest ih =>
    cases rest with
    | nil =>
      show splitSep p w = [w]
      exact splitSep_all_clean p w (hclean w (by simp))
    | cons w2 rest2 =>
      show splitSep p (w ++ sep :: joinSep sep (w2 :: rest2)) = w :: w2 :: rest2
      rw [splitSep_append_sep p w _ sep (hclean w (by simp)) hsep]
      rw [ih (by simp) fun x hx => hclean x (List.mem_cons_of_mem _ hx)]

theorem splitSep_chars (p : Char → Bool) (l : List Char) :
    ∀ w ∈ splitSep p l, ∀ c ∈ w, p c = false := by
  induction l with
  | nil =>
    intro w hw
    unfold splitSep at hw
    rw [List.mem_singleton] at hw
    subst hw
    intro c hc
    cases hc
  | cons a rest ih =>
    intro w hw
    unfold splitSep at hw
    by_cases ha : p a = true
    · rw [if_pos ha] at hw
      rcases List.mem_cons.mp hw with hw | hw
      · subst hw
        intro c hc
        cases hc
      · exact ih w hw
    · rw [if_neg ha] at hw
      cases hsp : splitSep p rest with
      | nil =>
        rw [hsp] at hw
        rw [List.mem_singleton] at hw
        subst hw
        intro c hc
        rw [List.mem_singleton] at hc
        subst hc
        simpa using ha
      | cons w0 ws0 =>
        rw [hsp] at hw
        rcases List.mem_cons.mp hw with hw | hw
        · subst hw
          intro c hc
          rcases List.mem_cons.mp hc with hc | hc
          · subst hc
            simpa using ha
          · exact ih w0 (by rw [hsp]; simp) c hc
        · exact ih w (by rw [hsp]; simp [hw])

/-- Every word heck extracts is nonempty and consists of alphanumerics. -/
theorem wordsOf_words (s : List Char) :
    ∀ w ∈ wordsOf s, w ≠ [] ∧ ∀ c ∈ w, isAlnumChar c = true := by
  intro w hw
  unfold wordsOf at hw
  rw [List.mem_flatMap] at hw
  obtain ⟨piece, hpiece, hw⟩ := hw
  have hchars : ∀ c ∈ piece, isAlnumChar c = true := by
    intro c hc
    have := splitSep_chars (fun c => !isAlnumChar c) s piece hpiece c hc
    simpa using this
  exact splitCamelAux_words piece (fun c => isAlnumChar c = true) .boundary []
    (by intro c hc; cases hc) hchars (by intro hh; cases hh) w hw

theorem flatMap_id_of_singletons (l : List (List Char))
    (h : ∀ w ∈ l, splitCamel w = [w]) : l.flatMap splitCamel = l := by
  induction l with
  | nil => rfl
  | cons w rest ih =>
    rw [List.flatMap_cons, h w (by simp), ih fun x hx => h x (List.mem_cons_of_mem _ hx)]
    rfl

theorem wordsOf_nil : wordsOf [] = [] := rfl

/-- Re-splitting a separator-joined list of lowercased clean words recovers
exactly those words. -/
theorem wordsOf_joinSep_lower (sep : Char) (hsep : isAlnumChar sep = false)
    (ws : List (List Char)) (hws : ∀ w ∈ ws, w ≠ [] ∧ ∀ c ∈ w, isAlnumChar c = true) :
    wordsOf (joinSep sep (ws.map lowerWord)) = ws.map lowerWord := by
  cases ws with
  | nil => rfl
  | cons w0 rest =>
    unfold wordsOf
    rw [splitSep_joinSep (fun c => !isAlnumChar c) sep (by simp [hsep])
      ((w0 :: rest).map lowerWord) (by simp) ?hclean]
    case hclean =>
      intro w hw c hc
      rw [List.mem_map] at hw
      obtain ⟨w1, hw1, hmap⟩ := hw
      subst hmap
      unfold lowerWord at hc
      rw [List.mem_map] at hc
      obtain ⟨c1, hc1, hmapc⟩ := hc
      subst hmapc
      simp [isAlnumChar_toLowerChar c1 ((hws w1 hw1).2 c1 hc1)]
    apply flatMap_id_of_singletons
    intro w hw
    rw [List.mem_map] at hw
    obtain ⟨w1, hw1, hmap⟩ := hw
    subst hmap
    unfold splitCamel
    apply splitCamelAux_no_upper
    · unfold lowerWord
      intro hh
      rw [List.map_eq_nil_iff] at hh
      exact (hws w1 hw1).1 hh
    · intro c hc
      unfold lowerWord at hc
      rw [List.mem_map] at hc
      obtain ⟨c1, hc1, hmapc⟩ := hc
      subst hmapc
      exact isAsciiUpper_toLowerChar c1

/-- Re-splitting a separator-joined list of uppercased clean words recovers
exactly those words. -/
theorem wordsOf_joinSep_upper (sep : Char) (hsep : isAlnumChar sep = false)
    (ws : List (List Char)) (hws : ∀ w ∈ ws, w ≠ [] ∧ ∀ c ∈ w, isAlnumChar c = true) :
    wordsOf (joinSep sep (ws.map upperWord)) = ws.map upperWord := by
  cases ws with
  | nil => rfl
  | cons w0 rest =>
    unfold wordsOf
    rw [splitSep_joinSep (fun c => !isAlnumChar c) sep (by simp [hsep])
      ((w0 :: rest).map upperWord) (by simp) ?hclean]
    case hclean =>
      intro w hw c hc
      rw [List.mem_map] at hw
      obtain ⟨w1, hw1, hmap⟩ := hw
      subst hmap
      unfold upperWord at hc
      rw [List.mem_map] at hc
      obtain ⟨c1, hc1, hmapc⟩ := hc
      subst hmapc
      simp [isAlnumChar_toUpperChar c1 ((hws w1 hw1).2 c1 hc1)]
    apply flatMap_id_of_singletons
    intro w hw
    rw [List.mem_map] at hw
    obtain ⟨w1, hw1, hmap⟩ := hw
    subst hmap
    unfold splitCamel
    apply splitCamelAux_no_lower
    · unfold upperWord
      intro hh
      rw [List.map_eq_nil_iff] at hh
      exact (hws w1 hw1).1 hh
    · intro c hc
      unfold upperWord at hc
      rw [List.mem_map] at hc
      obtain ⟨c1, hc1, hmapc⟩ := hc
      subst hmapc
      exact isAsciiLower_toUpperChar c1
    · intro hh
      cases hh

theorem lowerWord_idem (w : List Char) : lowerWord (lowerWord w) = lowerWord w := by
  unfold lowerWord
  rw [List.map_map]
  apply List.map_congr_left
  intro c _
  exact toLowerChar_idem c

theorem upperWord_idem (w : List Char) : upperWord (upperWord w) = upperWord w := by
  unfold upperWord
  rw [List.map_map]
  apply List.map_congr_left
  intro c _
  exact toUpperChar_idem c

theorem toSnakeCase_idem (s : List Char) : toSnakeCase (toSnakeCase s) = toSnakeCase s := by
  unfold toSnakeCase
  rw [wordsOf_joinSep_lower '_' (by decide) (wordsOf s) (wordsOf_words s)]
  congr 1
  rw [List.map_map]
  apply List.map_congr_left
  intro w _
  exact lowerWord_idem w

theorem toKebabCase_idem (s : List Char) : toKebabCase (toKebabCase s) = toKebabCase s := by
  unfold toKebabCase
  rw [wordsOf_joinSep_lower '-' (by decide) (wordsOf s) (wordsOf_words s)]
  congr 1
  rw [List.map_map]
  apply List.map_congr_left
  intro w _
  exact lowerWord_idem w

theorem toShoutySnakeCase_idem (s : List Char) :
    toShoutySnakeCase (toShoutySnakeCase s) = toShoutySnakeCase s := by
  unfold toShoutySnakeCase
  rw [wordsOf_joinSep_upper '_' (by decide) (wordsOf s) (wordsOf_words s)]
  congr 1
  rw [List.map_map]
  apply List.map_congr_left
  intro w _
  exact upperWord_idem w

theorem toShoutyKebabCase_idem (s : List Char) :
    toShoutyKebabCase (toShoutyKebabCase s) = toShoutyKebabCase s := by
  unfold toShoutyKebabCase
  rw [wordsOf_joinSep_upper '-' (by decide) (wordsOf s) (wordsOf_words s)]
  congr 1
  rw [List.map_map]
  apply List.map_congr_left
  intro w _
  exact upperWord_idem w

/-- C6 (amended): four of the six case-style transformations — snake, kebab,
screaming-snake and screaming-kebab — are idempotent on every string, so for
those styles the name transformation applied during expansion and again
during rendering yields the same displayed name as applying it once.  The
camel and pascal styles are not idempotent (see the counterexample). -/
theorem c6_four_styles_idempotent (c : CaseStyle)
    (h : c = .Snake ∨ c = .Kebab ∨ c = .ScreamingSnake ∨ c = .ScreamingKebab)
    (s : String) :
    apply_field_name_transformation (apply_field_name_transformation s (some c)) (some c)
      = apply_field_name_transformation s (some c) := by
  rcases h with h | h | h | h <;> subst h
  · show String.mk (toSnakeCase (String.mk (toSnakeCase s.data)).data)
      = String.mk (toSnakeCase s.data)
    rw [show (String.mk (toSnakeCase s.data)).data = toSnakeCase s.data from rfl,
      toSnakeCase_idem]
  · show String.mk (toKebabCase (String.mk (toKebabCase s.data)).data)
      = String.mk (toKebabCase s.data)
    rw [show (String.mk (toKebabCase s.data)).data = toKebabCase s.data from rfl,
      toKebabCase_idem]
  · show String.mk (toShoutySnakeCase (String.mk (toShoutySnakeCase s.data)).data)
      = String.mk (toShoutySnakeCase s.data)
    rw [show (String.mk (toShoutySnakeCase s.data)).data = toShoutySnakeCase s.data from rfl,
      toShoutySnakeCase_idem]
  · show String.mk (toShoutyKebabCase (String.mk (toShoutyKebabCase s.data)).data)
      = String.mk (toShoutyKebabCase s.data)
    rw [show (String.mk (toShoutyKebabCase s.data)).data = toShoutyKebabCase s.data from rfl,
      toShoutyKebabCase_idem]

theorem c6_four_styles_idempotent_witness :
    apply_field_name_transformation
        (apply_field_name_transformation "postgres_host" (some .Snake)) (some .Snake)
      = apply_field_name_transformation "postgres_host" (some .Snake) :=
  c6_four_styles_idempotent .Snake (Or.inl rfl) "postgres_host"

/-- C6 counterexample: the pascal transformation is not idempotent.  One
application maps `a_b` to `AB`; a second application maps `AB` to `Ab`, so
the doubled transformation performed by expansion followed by rendering
changes the displayed name. -/
theorem c6_idempotence_counterexample :
    apply_field_name_transformation
        (apply_field_name_transformation "a_b" (some .Pascal)) (some .Pascal)
      ≠ apply_field_name_transformation "a_b" (some .Pascal) := by
  decide

/-! ## C8: order independence of the resolution driver -/

/-- The target paths of the generation requests of a declaration sequence. -/
def declTargets (ds : List Decl) : List String :=
  ds.filterMap fun d =>
    match d with
    | .reg _ => none
    | .gen _ args => some args.target

/-- The record names registered by a declaration sequence. -/
def regNames (ds : List Decl) : List String :=
  ds.filterMap fun d =>
    match d with
    | .reg info => some info.name
    | .gen _ _ => none

/-- The declared type names of a struct's flattened fields. -/
def flatDeps (info : StructInfo) : List String :=
  (info.fields.filter fun f => f.clap_attrs.flatten).map fun f => f.field_type

/-- The flatten dependencies of a declaration (empty for registrations). -/
def genDeps : Decl → List String
  | .reg _ => []
  | .gen info _ => flatDeps info

/-- The permutation condition of the claim: every generation request's
flattened types are eventually declared in the sequence. -/
def depsDeclared (ds : List Decl) : Prop :=
  ∀ d ∈ ds, ∀ dep ∈ genDeps d, dep ∈ regNames ds

def cexS1 : StructInfo := ⟨"A", [⟨"a", "u8", none, exAttrs, "A"⟩], none⟩

def cexS2 : StructInfo := ⟨"B", [⟨"bb", "u8", none, exAttrs, "B"⟩], none⟩

def cexDsA : List Decl := [.gen cexS1 ⟨"T", .Flat⟩, .gen cexS2 ⟨"T", .Flat⟩]

def cexDsB : List Decl := [.gen cexS2 ⟨"T", .Flat⟩, .gen cexS1 ⟨"T", .Flat⟩]

set_option maxRecDepth 8000 in
/-- C8 counterexample: two generation requests sharing one target path.  Both
orders satisfy the claim's permutation condition (no flattened types at all),
yet the final rendered target document differs: the updater replaces the
whole marker region, so the last writer wins and swapping the two requests
swaps the surviving table. -/
theorem c8_order_independence_counterexample :
    cexDsA.Perm cexDsB
    ∧ depsDeclared cexDsA
    ∧ depsDeclared cexDsB
    ∧ (runDecls (initState fun _ => none) cexDsA).fs "T"
        ≠ (runDecls (initState fun _ => none) cexDsB).fs "T" := by
  refine ⟨by decide, ?_, ?_, by decide⟩
  · intro d hd dep hdep
    rcases List.mem_cons.mp hd with rfl | hd2
    · simp [genDeps, flatDeps, cexS1, exAttrs] at hdep
    · rcases List.mem_cons.mp hd2 with rfl | hd3
      · simp [genDeps, flatDeps, cexS2, exAttrs] at hdep
      · cases hd3
  · intro d hd dep hdep
    rcases List.mem_cons.mp hd with rfl | hd2
    · simp [genDeps, flatDeps, cexS2, exAttrs] at hdep
    · rcases List.mem_cons.mp hd2 with rfl | hd3
      · simp [genDeps, flatDeps, cexS1, exAttrs] at hdep
      · cases hd3

/-- Resolvability restated: every flattened field's type is a registry key. -/
theorem can_generate_eq_true_iff (reg : List (String × StructInfo)) (info : StructInfo) :
    can_generate_immediately reg info = true ↔
      ∀ f ∈ info.fields, f.clap_attrs.flatten = true → regContains reg f.field_type = true := by
  unfold can_generate_immediately
  rw [List.all_eq_true]
  constructor
  · intro h f hf hfl
    have hh := h f hf
    rw [hfl] at hh
    cases hc : regContains reg f.field_type with
    | true => rfl
    | false => rw [hc] at hh; simp at hh
  · intro h f hf
    cases hfl : f.clap_attrs.flatten with
    | false => simp [hfl]
    | true => simp [hfl, h f hf hfl]

theorem can_generate_iff_deps (reg : List (String × StructInfo)) (info : StructInfo) :
    can_generate_immediately reg info = true ↔
      ∀ dep ∈ flatDeps info, regContains reg dep = true := by
  rw [can_generate_eq_true_iff]
  unfold flatDeps
  constructor
  · intro h dep hdep
    rw [List.mem_map] at hdep
    obtain ⟨f, hf, rfl⟩ := hdep
    rw [List.mem_filter] at hf
    exact h f hf.1 hf.2
  · intro h f hf hfl
    exact h f.field_type (List.mem_map.mpr ⟨f, List.mem_filter.mpr ⟨hf, hfl⟩, rfl⟩)

/-- The registry contents after processing a declaration sequence. -/
def insertRegs (ds : List Decl) (reg : List (String × StructInfo)) :
    List (String × StructInfo) :=
  ds.foldl (fun r d =>
    match d with
    | .reg info => (info.name, info) :: r
    | .gen _ _ => r) reg

theorem regContains_cons (e : String × StructInfo) (reg : List (String × StructInfo))
    (key : String) (h : regContains reg key = true) : regContains (e :: reg) key = true := by
  obtain ⟨n, v⟩ := e
  unfold regContains
  show (regLookup key ((n, v) :: reg)).isSome = true
  unfold regLookup
  by_cases hn : n = key
  · rw [if_pos hn]
    rfl
  · rw [if_neg hn]
    exact h

theorem regLookup_insertRegs_stable (ds : List Decl) (reg : List (String × StructInfo))
    (key : String) (v : StructInfo)
    (hk : regLookup key reg = some v)
    (hnodup : (regNames ds).Nodup)
    (hfresh : ∀ n ∈ regNames ds, regLookup n reg = none) :
    regLookup key (insertRegs ds reg) = some v := by
  induction ds generalizing reg with
  | nil => exact hk
  | cons d rest ih =>
    cases d with
    | gen i a =>
      show regLookup key (insertRegs rest reg) = some v
      exact ih reg hk (by simpa [regNames] using hnodup) (by
        intro n hn
        exact hfresh n (by simpa [regNames] using hn))
    | reg info =>
      show regLookup key (insertRegs rest ((info.name, info) :: reg)) = some v
      have hnames : regNames (Decl.reg info :: rest) = info.name :: regNames rest := rfl
      rw [hnames] at hnodup hfresh
      have hni : ¬(info.name = key) := by
        intro hh
        have hcontra := hfresh info.name (by simp)
        rw [hh, hk] at hcontra
        cases hcontra
      apply ih
      · show regLookup key ((info.name, info) :: reg) = some v
        unfold regLookup
        rw [if_neg hni]
        exact hk
      · exact (List.nodup_cons.mp hnodup).2
      · intro n hn
        unfold regLookup
        rw [if_neg (by
          intro hh
          exact (List.nodup_cons.mp hnodup).1 (hh ▸ hn))]
        exact hfresh n (by simp [hn])

theorem expand_eq_of_lookups (reg1 reg2 : List (String × StructInfo)) (info : StructInfo)
    (hlk : ∀ f ∈ info.fields, f.clap_attrs.flatten = true →
      regLookup f.field_type reg1 = regLookup f.field_type reg2) :
    expand_nested_structs reg1 info = expand_nested_structs reg2 info := by
  unfold expand_nested_structs
  have hfields : info.fields.flatMap (expandFieldStep reg1 info.clap_rename_all)
      = info.fields.flatMap (expandFieldStep reg2 info.clap_rename_all) := by
    apply flatMapCongr
    intro f hf
    unfold expandFieldStep get_registered_struct
    cases hfl : f.clap_attrs.flatten with
    | false => simp [hfl]
    | true => rw [hlk f hf hfl]
  rw [hfields]

/-- Once a request is resolvable, later registrations of fresh names do not
change its expansion. -/
theorem expand_insertRegs_stable (ds : List Decl) (reg : List (String × StructInfo))
    (info : StructInfo)
    (hres : can_generate_immediately reg info = true)
    (hnodup : (regNames ds).Nodup)
    (hfresh : ∀ n ∈ regNames ds, regLookup n reg = none) :
    expand_nested_structs (insertRegs ds reg) info = expand_nested_structs reg info := by
  apply expand_eq_of_lookups
  intro f hf hfl
  have hc := (can_generate_eq_true_iff reg info).mp hres f hf hfl
  unfold regContains at hc
  cases hlk : regLookup f.field_type reg with
  | none => rw [hlk] at hc; cases hc
  | some v =>
    exact regLookup_insertRegs_stable ds reg f.field_type v hlk hnodup hfresh

theorem foldl_writeFor_ne (reg : List (String × StructInfo)) (t : String)
    (l : List PendingGeneration) (fs : FileSystem)
    (h : ∀ pg ∈ l, ¬pg.args.target = t) :
    (l.foldl (writeFor reg) fs) t = fs t := by
  induction l generalizing fs with
  | nil => rfl
  | cons pg rest ih =>
    rw [List.foldl_cons]
    rw [ih _ fun x hx => h x (List.mem_cons_of_mem _ hx)]
    show do_update fs pg.args.target _ t = fs t
    unfold do_update
    rw [if_neg fun hh => h pg (by simp) hh.symm]

theorem foldl_writeFor_single (reg : List (String × StructInfo)) (t : String)
    (l : List PendingGeneration) (fs : FileSystem) (pg : PendingGeneration)
    (h : l.filter (fun q => q.args.target == t) = [pg]) :
    (l.foldl (writeFor reg) fs) t
      = some (update_target_file (fs t)
          (generate_markdown_table (expand_nested_structs reg pg.struct_info) pg.args).data) := by
  induction l generalizing fs with
  | nil => cases h
  | cons q rest ih =>
    rw [List.filter_cons] at h
    by_cases hq : (q.args.target == t) = true
    · rw [if_pos hq] at h
      injection h with h1 h2
      subst h1
      have ht : q.args.target = t := by simpa using hq
      rw [List.foldl_cons]
      have hrest : ∀ x ∈ rest, ¬x.args.target = t := by
        intro x hx hxx
        have hmem : x ∈ rest.filter (fun q2 => q2.args.target == t) :=
          List.mem_filter.mpr ⟨hx, by simp [hxx]⟩
        rw [h2] at hmem
        cases hmem
      rw [foldl_writeFor_ne reg t rest _ hrest]
      show do_update fs q.args.target _ t = _
      unfold do_update
      rw [ht, if_pos rfl]
    · rw [if_neg hq] at h
      rw [List.foldl_cons, ih _ h]
      have hfs : (writeFor reg fs q) t = fs t := by
        show do_update fs q.args.target _ t = fs t
        unfold do_update
        rw [if_neg fun hh => (by simpa using hq : ¬q.args.target = t) hh.symm]
      rw [hfs]

/-- The queued requests targeting `t`, across every key of the store. -/
def reqsFor (pending : List (String × List PendingGeneration)) (t : String) :
    List PendingGeneration :=
  pending.flatMap fun e => e.2.filter fun q => q.args.target == t

theorem filter_flatMap_comm {α β : Type} (l : List α) (f : α → List β) (p : β → Bool) :
    (l.flatMap f).filter p = l.flatMap fun x => (f x).filter p := by
  induction l with
  | nil => rfl
  | cons a rest ih => rw [List.flatMap_cons, List.flatMap_cons, List.filter_append, ih]

theorem flatMap_filter_drop {α β : Type} (l : List α) (p : α → Bool) (f : α → List β)
    (h : ∀ e ∈ l, p e = false → f e = []) :
    (l.filter p).flatMap f = l.flatMap f := by
  induction l with
  | nil => rfl
  | cons a rest ih =>
    rw [List.filter_cons]
    by_cases ha : p a = true
    · rw [if_pos ha, List.flatMap_cons, List.flatMap_cons,
        ih fun x hx hpx => h x (List.mem_cons_of_mem _ hx) hpx]
    · rw [if_neg ha, List.flatMap_cons,
        h a (by simp) (by simpa using ha), List.nil_append,
        ih fun x hx hpx => h x (List.mem_cons_of_mem _ hx) hpx]

theorem reqsFor_after_sweep (s : DriverState) (t : String) :
    reqsFor (try_process_pending_generations s).pending t
      = (reqsFor s.pending t).filter
          fun pg => !can_generate_immediately s.registry pg.struct_info := by
  unfold try_process_pending_generations
  rw [sweepAll_spec]
  show reqsFor (((s.pending.map fun e =>
      (e.1, e.2.filter fun pg => !can_generate_immediately s.registry pg.struct_info)).filter
      (fun e => !e.2.isEmpty))) t = _
  unfold reqsFor
  rw [flatMap_filter_drop _ _ _ (fun e _ hpe => by
    have he2 : e.2 = [] := by
      cases hh : e.2 with
      | nil => rfl
      | cons x xs => rw [hh] at hpe; simp at hpe
    rw [he2]
    rfl)]
  rw [List.flatMap_map]
  rw [show (fun e : String × List PendingGeneration =>
        (((e.1, e.2.filter fun pg => !can_generate_immediately s.registry pg.struct_info) :
          String × List PendingGeneration).2.filter fun q => q.args.target == t))
      = fun e => (e.2.filter fun pg => !can_generate_immediately s.registry pg.struct_info).filter
          fun q => q.args.target == t from rfl]
  rw [show (fun e : String × List PendingGeneration =>
        (e.2.filter fun pg => !can_generate_immediately s.registry pg.struct_info).filter
          fun q => q.args.target == t)
      = fun e => (e.2.filter fun q => q.args.target == t).filter
          fun pg => !can_generate_immediately s.registry pg.struct_info from by
    funext e
    rw [List.filter_comm]]
  rw [← filter_flatMap_comm]

theorem sweep_writes_filter (s : DriverState) (t : String) :
    ((s.pending.flatMap fun e =>
        e.2.filter fun pg => can_generate_immediately s.registry pg.struct_info).filter
      fun q => q.args.target == t)
      = (reqsFor s.pending t).filter
          fun pg => can_generate_immediately s.registry pg.struct_info := by
  unfold reqsFor
  rw [filter_flatMap_comm, filter_flatMap_comm]
  apply flatMapCongr
  intro e _
  rw [List.filter_comm]

theorem reqsFor_push_ne (p : List (String × List PendingGeneration)) (a : String)
    (pg : PendingGeneration) (t : String) (hne : ¬(pg.args.target == t) = true) :
    reqsFor (pendingPush p a pg) t = reqsFor p t := by
  induction p with
  | nil =>
    show reqsFor [(a, [pg])] t = reqsFor [] t
    unfold reqsFor
    simp [List.filter_cons, hne]
  | cons e rest ih =>
    obtain ⟨k, l⟩ := e
    unfold pendingPush
    by_cases hk : k = a
    · rw [if_pos hk]
      unfold reqsFor
      rw [List.flatMap_cons, List.flatMap_cons]
      show (l ++ [pg]).filter _ ++ _ = l.filter _ ++ _
      rw [List.filter_append]
      simp [List.filter_cons, hne]
    · rw [if_neg hk]
      unfold reqsFor
      rw [List.flatMap_cons, List.flatMap_cons]
      show _ ++ reqsFor (pendingPush rest a pg) t = _ ++ reqsFor rest t
      rw [ih]

theorem reqsFor_push_eq (p : List (String × List PendingGeneration)) (a : String)
    (pg : PendingGeneration) (t : String) (heq : (pg.args.target == t) = true)
    (hempty : reqsFor p t = []) :
    reqsFor (pendingPush p a pg) t = [pg] := by
  induction p with
  | nil =>
    show reqsFor [(a, [pg])] t = [pg]
    unfold reqsFor
    simp [List.filter_cons, heq]
  | cons e rest ih =>
    obtain ⟨k, l⟩ := e
    have hsplit : l.filter (fun q => q.args.target == t) = [] ∧ reqsFor rest t = [] := by
      unfold reqsFor at hempty
      rw [List.flatMap_cons] at hempty
      exact List.append_eq_nil.mp hempty
    unfold pendingPush
    by_cases hk : k = a
    · rw [if_pos hk]
      unfold reqsFor
      rw [List.flatMap_cons]
      show (l ++ [pg]).filter _ ++ reqsFor rest t = [pg]
      rw [List.filter_append, hsplit.1, hsplit.2, List.nil_append, List.append_nil]
      simp [List.filter_cons, heq]
    · rw [if_neg hk]
      unfold reqsFor
      rw [List.flatMap_cons]
      show l.filter _ ++ reqsFor (pendingPush rest a pg) t = [pg]
      rw [hsplit.1, ih hsplit.2, List.nil_append]

/-- The generation requests in a declaration list targeting `t`, counted. -/
def countGen (ds : List Decl) (t : String) : Nat := (declTargets ds).count t

/-- The first generation request in a declaration list targeting `t`. -/
def genFor (ds : List Decl) (t : String) : Option (StructInfo × ConfigDocsArgs) :=
  match ds with
  | [] => none
  | .reg _ :: rest => genFor rest t
  | .gen i a :: rest => if a.target = t then some (i, a) else genFor rest t

theorem countGen_reg_cons (info : StructInfo) (rest : List Decl) (t : String) :
    countGen (Decl.reg info :: rest) t = countGen rest t := rfl

theorem countGen_gen_cons (i : StructInfo) (a : ConfigDocsArgs) (rest : List Decl) (t : String) :
    countGen (Decl.gen i a :: rest) t
      = countGen rest t + (if a.target = t then 1 else 0) := by
  unfold countGen declTargets
  rw [List.filterMap_cons]
  show ((a.target :: rest.filterMap _).count t) = _
  rw [List.count_cons]
  by_cases h : a.target = t
  · rw [if_pos h, if_pos (by simp [h])]
  · rw [if_neg h, if_neg (by simp [h])]

theorem genFor_reg_cons (info : StructInfo) (rest : List Decl) (t : String) :
    genFor (Decl.reg info :: rest) t = genFor rest t := rfl

theorem genFor_gen_cons (i : StructInfo) (a : ConfigDocsArgs) (rest : List Decl) (t : String) :
    genFor (Decl.gen i a :: rest) t
      = if a.target = t then some (i, a) else genFor rest t := rfl

theorem genFor_none_of_countGen_zero (ds : List Decl) (t : String)
    (h : countGen ds t = 0) : genFor ds t = none := by
  induction ds with
  | nil => rfl
  | cons d rest ih =>
    cases d with
    | reg info =>
      rw [genFor_reg_cons]
      rw [countGen_reg_cons] at h
      exact ih h
    | gen i a =>
      rw [countGen_gen_cons] at h
      rw [genFor_gen_cons]
      by_cases ht : a.target = t
      · rw [if_pos ht] at h
        omega
      · rw [if_neg ht]
        rw [if_neg ht] at h
        exact ih (by omega)

theorem mem_reqsFor {pending : List (String × List PendingGeneration)} {t : String}
    {pg : PendingGeneration} (h : pg ∈ reqsFor pending t) :
    (∃ e ∈ pending, pg ∈ e.2) ∧ pg.args.target = t := by
  unfold reqsFor at h
  rw [List.mem_flatMap] at h
  obtain ⟨e, he, hf⟩ := h
  rw [List.mem_filter] at hf
  exact ⟨⟨e, he, hf.1⟩, by simpa using hf.2⟩

theorem sweep_pending_eq (s : DriverState) :
    (try_process_pending_generations s).pending
      = ((s.pending.map fun e =>
          (e.1, e.2.filter fun pg => !can_generate_immediately s.registry pg.struct_info)).filter
          (fun e => !e.2.isEmpty)) := by
  have h1 : (try_process_pending_generations s).pending
      = (sweepAll s.registry s.pending s.fs).2.filter (fun e => !e.2.isEmpty) := rfl
  rw [h1, sweepAll_spec]

theorem sweep_fs_eq (s : DriverState) :
    (try_process_pending_generations s).fs
      = ((s.pending.flatMap fun e =>
          e.2.filter fun pg => can_generate_immediately s.registry pg.struct_info).foldl
          (writeFor s.registry) s.fs) := by
  have h1 : (try_process_pending_generations s).fs
      = (sweepAll s.registry s.pending s.fs).1 := rfl
  rw [h1, sweepAll_spec]

theorem sweep_pending_mem (s : DriverState) (e' : String × List PendingGeneration)
    (h : e' ∈ (try_process_pending_generations s).pending) :
    ∃ e ∈ s.pending, e'.1 = e.1
      ∧ e'.2 = e.2.filter fun pg => !can_generate_immediately s.registry pg.struct_info := by
  rw [sweep_pending_eq] at h
  rw [List.mem_filter] at h
  obtain ⟨hmem, _⟩ := h
  rw [List.mem_map] at hmem
  obtain ⟨e, he, hmap⟩ := hmem
  exact ⟨e, he, by rw [← hmap], by rw [← hmap]⟩

theorem mem_pendingPush (p : List (String × List PendingGeneration)) (a : String)
    (pg : PendingGeneration) (e' : String × List PendingGeneration)
    (h : e' ∈ pendingPush p a pg) :
    e' ∈ p ∨ (∃ e ∈ p, e'.1 = e.1 ∧ e'.2 = e.2 ++ [pg] ∧ e'.1 = a) ∨ e' = (a, [pg]) := by
  induction p with
  | nil =>
    right; right
    rw [show pendingPush [] a pg = [(a, [pg])] from rfl, List.mem_singleton] at h
    exact h
  | cons e rest ih =>
    obtain ⟨k, l⟩ := e
    unfold pendingPush at h
    by_cases hk : k = a
    · rw [if_pos hk] at h
      rcases List.mem_cons.mp h with h | h
      · right; left
        exact ⟨(k, l), by simp, by rw [h], by rw [h], by rw [h]; exact hk⟩
      · left
        exact List.mem_cons_of_mem _ h
    · rw [if_neg hk] at h
      rcases List.mem_cons.mp h with h | h
      · left
        rw [h]
        exact List.mem_cons_self _ _
      · rcases ih h with h2 | h2 | h2
        · exact Or.inl (List.mem_cons_of_mem _ h2)
        · right; left
          obtain ⟨e0, he0, h3⟩ := h2
          exact ⟨e0, List.mem_cons_of_mem _ he0, h3⟩
        · exact Or.inr (Or.inr h2)

theorem do_update_at_self (fs : FileSystem) (target : String) (table : String) :
    do_update fs target table target = some (update_target_file (fs target) table.data) := by
  unfold do_update
  rw [if_pos rfl]

theorem do_update_at_ne (fs : FileSystem) (target : String) (table : String) (t : String)
    (h : ¬t = target) : do_update fs target table t = fs t := by
  unfold do_update
  rw [if_neg h]

/-- The content written for a request once its dependencies are in. -/
def finalFsVal (regF : List (String × StructInfo)) (fs0t : Option (List Char))
    (i : StructInfo) (a : ConfigDocsArgs) : Option (List Char) :=
  some (update_target_file fs0t
    (generate_markdown_table (expand_nested_structs regF i) a).data)

/-- The driver's final file content at a target, characterized from the
declaration multiset: the unique request for `t` (queued or upcoming) is
written exactly once against the full final registry. -/
theorem run_fs_characterization (ds : List Decl) :
    ∀ (s : DriverState) (t : String),
    (∀ e ∈ s.pending, ∀ pg ∈ e.2, pg.args.target = e.1) →
    (∀ e ∈ s.pending, ∀ pg ∈ e.2, can_generate_immediately s.registry pg.struct_info = false) →
    ((regNames ds).Nodup) →
    (∀ n ∈ regNames ds, regLookup n s.registry = none) →
    (countGen ds t + (reqsFor s.pending t).length ≤ 1) →
    (∀ pg ∈ reqsFor s.pending t, ∀ dep ∈ flatDeps pg.struct_info,
        regContains s.registry dep = true ∨ dep ∈ regNames ds) →
    (∀ i a, genFor ds t = some (i, a) →
        ∀ dep ∈ flatDeps i, regContains s.registry dep = true ∨ dep ∈ regNames ds) →
    (runDecls s ds).fs t =
      match reqsFor s.pending t, genFor ds t with
      | pg :: _, _ => finalFsVal (insertRegs ds s.registry) (s.fs t) pg.struct_info pg.args
      | [], some (i, a) => finalFsVal (insertRegs ds s.registry) (s.fs t) i a
      | [], none => s.fs t := by
  induction ds with
  | nil =>
    intro s t hWF hUnres hNodup hFresh hBudget hDeps hDepsGen
    cases hrq : reqsFor s.pending t with
    | nil => rfl
    | cons pg tl =>
      exfalso
      have hmem : pg ∈ reqsFor s.pending t := by rw [hrq]; simp
      have hres : can_generate_immediately s.registry pg.struct_info = true := by
        rw [can_generate_iff_deps]
        intro dep hdep
        rcases hDeps pg hmem dep hdep with h | h
        · exact h
        · simp [regNames] at h
      obtain ⟨⟨e, he, hpe⟩, _⟩ := mem_reqsFor hmem
      have hcontra := hUnres e he pg hpe
      rw [hres] at hcontra
      cases hcontra
  | cons d rest ih =>
    intro s t hWF hUnres hNodup hFresh hBudget hDeps hDepsGen
    cases d with
    | reg info =>
      have hnames : regNames (Decl.reg info :: rest) = info.name :: regNames rest := rfl
      rw [hnames] at hNodup hFresh
      rw [countGen_reg_cons] at hBudget
      set s1 := try_process_pending_generations
        { registry := (info.name, info) :: s.registry, pending := s.pending, fs := s.fs }
        with hs1
      have hstep : runDecls s (Decl.reg info :: rest) = runDecls s1 rest := rfl
      have hreg' : s1.registry = (info.name, info) :: s.registry := rfl
      have hpend' : reqsFor s1.pending t
          = (reqsFor s.pending t).filter
              (fun pg => !can_generate_immediately ((info.name, info) :: s.registry)
                pg.struct_info) :=
        reqsFor_after_sweep _ t
      have hfs' : s1.fs
          = ((s.pending.flatMap fun e =>
              e.2.filter fun pg =>
                can_generate_immediately ((info.name, info) :: s.registry) pg.struct_info).foldl
              (writeFor ((info.name, info) :: s.registry)) s.fs) :=
        sweep_fs_eq _
      have hsw : ((s.pending.flatMap fun e =>
              e.2.filter fun pg =>
                can_generate_immediately ((info.name, info) :: s.registry)
                  pg.struct_info).filter (fun q => q.args.target == t))
          = (reqsFor s.pending t).filter
              (fun pg => can_generate_immediately ((info.name, info) :: s.registry)
                pg.struct_info) :=
        sweep_writes_filter
          { registry := (info.name, info) :: s.registry, pending := s.pending, fs := s.fs } t
      have hWF1 : ∀ e ∈ s1.pending, ∀ pg ∈ e.2, pg.args.target = e.1 := by
        intro e' he' pg hpg
        obtain ⟨e, he, h1, h2⟩ := sweep_pending_mem _ e' he'
        rw [h2, List.mem_filter] at hpg
        rw [h1]
        exact hWF e he pg hpg.1
      have hUnres1 : ∀ e ∈ s1.pending, ∀ pg ∈ e.2,
          can_generate_immediately s1.registry pg.struct_info = false := by
        intro e' he' pg hpg
        obtain ⟨e, he, h1, h2⟩ := sweep_pending_mem _ e' he'
        rw [h2, List.mem_filter] at hpg
        rw [hreg']
        simpa using hpg.2
      have hNodup1 : (regNames rest).Nodup := (List.nodup_cons.mp hNodup).2
      have hFresh1 : ∀ n ∈ regNames rest, regLookup n s1.registry = none := by
        intro n hn
        rw [hreg']
        show regLookup n ((info.name, info) :: s.registry) = none
        unfold regLookup
        rw [if_neg fun hh => (List.nodup_cons.mp hNodup).1 (by rw [hh]; exact hn)]
        exact hFresh n (List.mem_cons_of_mem _ hn)
      have hBudget1 : countGen rest t + (reqsFor s1.pending t).length ≤ 1 := by
        rw [hpend']
        have hle := List.length_filter_le
          (fun pg => !can_generate_immediately ((info.name, info) :: s.registry) pg.struct_info)
          (reqsFor s.pending t)
        omega
      have hDeps1 : ∀ pg ∈ reqsFor s1.pending t, ∀ dep ∈ flatDeps pg.struct_info,
          regContains s1.registry dep = true ∨ dep ∈ regNames rest := by
        intro pg hpg dep hdep
        rw [hpend', List.mem_filter] at hpg
        rcases hDeps pg hpg.1 dep hdep with h | h
        · left
          rw [hreg']
          exact regContains_cons _ _ _ h
        · rw [hnames] at h
          rcases List.mem_cons.mp h with heq | h
          · left
            rw [hreg']
            show (regLookup dep ((info.name, info) :: s.registry)).isSome = true
            unfold regLookup
            rw [if_pos heq.symm]
            rfl
          · right
            exact h
      have hDepsGen1 : ∀ i a, genFor rest t = some (i, a) → ∀ dep ∈ flatDeps i,
          regContains s1.registry dep = true ∨ dep ∈ regNames rest := by
        intro i a hga dep hdep
        have hga2 : genFor (Decl.reg info :: rest) t = some (i, a) := by
          rw [genFor_reg_cons]
          exact hga
        rcases hDepsGen i a hga2 dep hdep with h | h
        · left
          rw [hreg']
          exact regContains_cons _ _ _ h
        · rw [hnames] at h
          rcases List.mem_cons.mp h with heq | h
          · left
            rw [hreg']
            show (regLookup dep ((info.name, info) :: s.registry)).isSome = true
            unfold regLookup
            rw [if_pos heq.symm]
            rfl
          · right
            exact h
      have IH := ih s1 t hWF1 hUnres1 hNodup1 hFresh1 hBudget1 hDeps1 hDepsGen1
      rw [hstep, IH, hpend', genFor_reg_cons]
      cases hrq : reqsFor s.pending t with
      | nil =>
        rw [List.filter_nil]
        have hWt : ((s.pending.flatMap fun e =>
            e.2.filter fun pg =>
              can_generate_immediately ((info.name, info) :: s.registry)
                pg.struct_info).filter (fun q => q.args.target == t)) = [] := by
          rw [hsw, hrq, List.filter_nil]
        have hfst : s1.fs t = s.fs t := by
          rw [hfs']
          apply foldl_writeFor_ne
          intro pg hpg hcontra
          have hmem2 : pg ∈ ((s.pending.flatMap fun e =>
              e.2.filter fun pg =>
                can_generate_immediately ((info.name, info) :: s.registry)
                  pg.struct_info).filter (fun q => q.args.target == t)) :=
            List.mem_filter.mpr ⟨hpg, by simp [hcontra]⟩
          rw [hWt] at hmem2
          cases hmem2
        rw [hfst]
        cases genFor rest t with
        | none => rfl
        | some ia => rfl
      | cons pg tl =>
        have hlen1 : (reqsFor s.pending t).length = tl.length + 1 := by rw [hrq]; simp
        have htl : tl = [] := List.length_eq_zero.mp (by omega)
        have hcg0 : countGen rest t = 0 := by omega
        have hgfr : genFor rest t = none := genFor_none_of_countGen_zero rest t hcg0
        subst htl
        rw [hgfr]
        by_cases hres : can_generate_immediately ((info.name, info) :: s.registry)
            pg.struct_info = true
        · rw [show (List.filter (fun pg => !can_generate_immediately
              ((info.name, info) :: s.registry) pg.struct_info) (pg :: []) : List PendingGeneration)
              = [] from by simp [List.filter_cons, hres]]
          have hWt : ((s.pending.flatMap fun e =>
              e.2.filter fun pg =>
                can_generate_immediately ((info.name, info) :: s.registry)
                  pg.struct_info).filter (fun q => q.args.target == t)) = [pg] := by
            rw [hsw, hrq]
            simp [List.filter_cons, hres]
          have hfst : s1.fs t = some (update_target_file (s.fs t)
              (generate_markdown_table
                (expand_nested_structs ((info.name, info) :: s.registry) pg.struct_info)
                pg.args).data) := by
            rw [hfs']
            exact foldl_writeFor_single _ t _ _ pg hWt
          rw [hfst]
          show some (update_target_file (s.fs t)
              (generate_markdown_table
                (expand_nested_structs ((info.name, info) :: s.registry) pg.struct_info)
                pg.args).data)
            = finalFsVal (insertRegs rest ((info.name, info) :: s.registry)) (s.fs t)
                pg.struct_info pg.args
          unfold finalFsVal
          rw [expand_insertRegs_stable rest ((info.name, info) :: s.registry)
            pg.struct_info hres hNodup1 hFresh1]
        · have hresF : can_generate_immediately ((info.name, info) :: s.registry)
              pg.struct_info = false := by
            cases hx : can_generate_immediately ((info.name, info) :: s.registry)
                pg.struct_info with
            | true => exact absurd hx hres
            | false => rfl
          rw [show (List.filter (fun pg => !can_generate_immediately
              ((info.name, info) :: s.registry) pg.struct_info) (pg :: []) : List PendingGeneration)
              = [pg] from by simp [List.filter_cons, hresF]]
          have hWt : ((s.pending.flatMap fun e =>
              e.2.filter fun pg =>
                can_generate_immediately ((info.name, info) :: s.registry)
                  pg.struct_info).filter (fun q => q.args.target == t)) = [] := by
            rw [hsw, hrq]
            simp [List.filter_cons, hresF]
          have hfst : s1.fs t = s.fs t := by
            rw [hfs']
            apply foldl_writeFor_ne
            intro q hq hcontra
            have hmem2 : q ∈ ((s.pending.flatMap fun e =>
                e.2.filter fun pg =>
                  can_generate_immediately ((info.name, info) :: s.registry)
                    pg.struct_info).filter (fun q2 => q2.args.target == t)) :=
              List.mem_filter.mpr ⟨hq, by simp [hcontra]⟩
            rw [hWt] at hmem2
            cases hmem2
          rw [hfst]
          rfl
    | gen ginfo gargs =>
      have hnames : regNames (Decl.gen ginfo gargs :: rest) = regNames rest := rfl
      rw [hnames] at hNodup hFresh
      rw [countGen_gen_cons] at hBudget
      by_cases hcan : can_generate_immediately s.registry ginfo = true
      · have hstep : runDecls s (Decl.gen ginfo gargs :: rest)
            = runDecls
                { registry := s.registry
                  pending := s.pending
                  fs := (do_update s.fs gargs.target
                    (generate_markdown_table (expand_nested_structs s.registry ginfo) gargs)) }
                rest := by
          show runDecls (stepDecl s (Decl.gen ginfo gargs)) rest = _
          show runDecls (generate_config_docs s ginfo gargs) rest = _
          unfold generate_config_docs
          rw [if_pos hcan]
        set s1 : DriverState :=
          { registry := s.registry
            pending := s.pending
            fs := (do_update s.fs gargs.target
              (generate_markdown_table (expand_nested_structs s.registry ginfo) gargs)) }
          with hs1
        by_cases htgt : gargs.target = t
        · have hcg : countGen rest t = 0 ∧ (reqsFor s.pending t).length = 0 := by
            rw [if_pos htgt] at hBudget
            omega
          have hrq : reqsFor s.pending t = [] := List.length_eq_zero.mp hcg.2
          have hgfr : genFor rest t = none := genFor_none_of_countGen_zero rest t hcg.1
          have IH := ih s1 t hWF hUnres hNodup hFresh
            (by
              rw [show reqsFor s1.pending t = reqsFor s.pending t from rfl, hrq]
              simp only [List.length_nil]
              omega)
            (by
              intro pg hpg
              rw [show reqsFor s1.pending t = reqsFor s.pending t from rfl, hrq] at hpg
              cases hpg)
            (by
              intro i a hga
              rw [hgfr] at hga
              cases hga)
          rw [hstep, IH]
          rw [show reqsFor s1.pending t = reqsFor s.pending t from rfl, hrq, hgfr]
          show s1.fs t = _
          have hfst : s1.fs t = some (update_target_file (s.fs t)
              (generate_markdown_table (expand_nested_structs s.registry ginfo) gargs).data) := by
            show do_update s.fs gargs.target _ t = _
            rw [htgt, do_update_at_self]
          rw [hfst]
          rw [show genFor (Decl.gen ginfo gargs :: rest) t = some (ginfo, gargs) from by
            rw [genFor_gen_cons, if_pos htgt]]
          show _ = finalFsVal (insertRegs rest s.registry) (s.fs t) ginfo gargs
          unfold finalFsVal
          rw [expand_insertRegs_stable rest s.registry ginfo hcan hNodup hFresh]
        · have IH := ih s1 t hWF hUnres hNodup hFresh
            (by
              show countGen rest t + (reqsFor s.pending t).length ≤ 1
              rw [if_neg htgt] at hBudget
              omega)
            (by
              intro pg hpg dep hdep
              exact hDeps pg hpg dep hdep)
            (by
              intro i a hga dep hdep
              exact hDepsGen i a (by rw [genFor_gen_cons, if_neg htgt]; exact hga) dep hdep)
          rw [hstep, IH]
          rw [show reqsFor s1.pending t = reqsFor s.pending t from rfl]
          have hfst : s1.fs t = s.fs t := by
            show do_update s.fs gargs.target _ t = s.fs t
            exact do_update_at_ne _ _ _ t fun hh => htgt hh.symm
          rw [hfst]
          rw [show genFor (Decl.gen ginfo gargs :: rest) t = genFor rest t from by
            rw [genFor_gen_cons, if_neg htgt]]
          rfl
      · have hcanF : can_generate_immediately s.registry ginfo = false := by
          cases hx : can_generate_immediately s.registry ginfo with
          | true => exact absurd hx hcan
          | false => rfl
        have hstep : runDecls s (Decl.gen ginfo gargs :: rest)
            = runDecls
                { registry := s.registry
                  pending := pendingPush s.pending gargs.target ⟨ginfo, gargs⟩
                  fs := s.fs } rest := by
          show runDecls (generate_config_docs s ginfo gargs) rest = _
          unfold generate_config_docs
          rw [if_neg (by rw [hcanF]; exact Bool.false_ne_true)]
        set s1 : DriverState :=
          { registry := s.registry
            pending := pendingPush s.pending gargs.target ⟨ginfo, gargs⟩
            fs := s.fs } with hs1
        have hWF1 : ∀ e ∈ s1.pending, ∀ pg ∈ e.2, pg.args.target = e.1 := by
          intro e' he' pg hpg
          rcases mem_pendingPush s.pending gargs.target ⟨ginfo, gargs⟩ e' he' with
            h | ⟨e, he, h1, h2, h3⟩ | h
          · exact hWF e' h pg hpg
          · rw [h2, List.mem_append] at hpg
            rcases hpg with hpg | hpg
            · rw [h1]
              exact hWF e he pg hpg
            · rw [List.mem_singleton] at hpg
              rw [hpg, h3]
          · rw [h] at hpg ⊢
            rw [List.mem_singleton] at hpg
            rw [hpg]
        have hUnres1 : ∀ e ∈ s1.pending, ∀ pg ∈ e.2,
            can_generate_immediately s1.registry pg.struct_info = false := by
          intro e' he' pg hpg
          rcases mem_pendingPush s.pending gargs.target ⟨ginfo, gargs⟩ e' he' with
            h | ⟨e, he, h1, h2, h3⟩ | h
          · exact hUnres e' h pg hpg
          · rw [h2, List.mem_append] at hpg
            rcases hpg with hpg | hpg
            · exact hUnres e he pg hpg
            · rw [List.mem_singleton] at hpg
              rw [hpg]
              exact hcanF
          · rw [h] at hpg
            rw [List.mem_singleton] at hpg
            rw [hpg]
            exact hcanF
        by_cases htgt : gargs.target = t
        · have hcg : countGen rest t = 0 ∧ (reqsFor s.pending t).length = 0 := by
            rw [if_pos htgt] at hBudget
            omega
          have hrq : reqsFor s.pending t = [] := List.length_eq_zero.mp hcg.2
          have hgfr : genFor rest t = none := genFor_none_of_countGen_zero rest t hcg.1
          have hpush : reqsFor s1.pending t = [⟨ginfo, gargs⟩] :=
            reqsFor_push_eq s.pending gargs.target ⟨ginfo, gargs⟩ t (by simp [htgt]) hrq
          have IH := ih s1 t hWF1 hUnres1 hNodup hFresh
            (by
              rw [hpush]
              simp only [List.length_singleton]
              omega)
            (by
              intro pg hpg dep hdep
              rw [hpush, List.mem_singleton] at hpg
              subst hpg
              exact hDepsGen ginfo gargs
                (by rw [genFor_gen_cons, if_pos htgt]) dep hdep)
            (by
              intro i a hga
              rw [hgfr] at hga
              cases hga)
          rw [hstep, IH, hpush, hgfr]
          rw [show genFor (Decl.gen ginfo gargs :: rest) t = some (ginfo, gargs) from by
            rw [genFor_gen_cons, if_pos htgt]]
          rw [hrq]
          rfl
        · have hpush : reqsFor s1.pending t = reqsFor s.pending t :=
            reqsFor_push_ne s.pending gargs.target ⟨ginfo, gargs⟩ t
              (by simp [htgt])
          have IH := ih s1 t hWF1 hUnres1 hNodup hFresh
            (by
              rw [hpush]
              rw [if_neg htgt] at hBudget
              omega)
            (by
              intro pg hpg dep hdep
              rw [hpush] at hpg
              exact hDeps pg hpg dep hdep)
            (by
              intro i a hga dep hdep
              exact hDepsGen i a (by rw [genFor_gen_cons, if_neg htgt]; exact hga) dep hdep)
          rw [hstep, IH, hpush]
          rw [show genFor (Decl.gen ginfo gargs :: rest) t = genFor rest t from by
            rw [genFor_gen_cons, if_neg htgt]]
          rfl

theorem mem_gen_countGen_pos (ds : List Decl) (t : String) (i : StructInfo)
    (a : ConfigDocsArgs) (hmem : Decl.gen i a ∈ ds) (ht : a.target = t) :
    1 ≤ countGen ds t := by
  unfold countGen
  have htm : t ∈ declTargets ds := by
    unfold declTargets
    rw [List.mem_filterMap]
    exact ⟨Decl.gen i a, hmem, by show some a.target = some t; rw [ht]⟩
  exact List.count_pos_iff.mpr htm

theorem genFor_eq_some_iff (ds : List Decl) (t : String) (i : StructInfo) (a : ConfigDocsArgs)
    (hcount : countGen ds t ≤ 1) :
    genFor ds t = some (i, a) ↔ (Decl.gen i a ∈ ds ∧ a.target = t) := by
  induction ds with
  | nil =>
    constructor
    · intro h
      cases h
    · intro h
      cases h.1
  | cons d rest ih =>
    cases d with
    | reg info =>
      rw [genFor_reg_cons]
      rw [show countGen (Decl.reg info :: rest) t = countGen rest t from rfl] at hcount
      rw [ih hcount]
      constructor
      · intro h
        exact ⟨List.mem_cons_of_mem _ h.1, h.2⟩
      · intro h
        refine ⟨?_, h.2⟩
        rcases List.mem_cons.mp h.1 with hh | hh
        · cases hh
        · exact hh
    | gen j b =>
      rw [genFor_gen_cons]
      rw [countGen_gen_cons] at hcount
      by_cases hbt : b.target = t
      · rw [if_pos hbt]
        constructor
        · intro h
          injection h with h1
          injection h1 with h2 h3
          subst h2
          subst h3
          exact ⟨List.mem_cons_self _ _, hbt⟩
        · intro h
          rcases List.mem_cons.mp h.1 with hh | hh
          · injection hh with h2 h3
            subst h2
            subst h3
            rfl
          · exfalso
            have := mem_gen_countGen_pos rest t i a hh h.2
            rw [if_pos hbt] at hcount
            omega
      · rw [if_neg hbt]
        rw [if_neg hbt] at hcount
        rw [ih (by omega)]
        constructor
        · intro h
          exact ⟨List.mem_cons_of_mem _ h.1, h.2⟩
        · intro h
          refine ⟨?_, h.2⟩
          rcases List.mem_cons.mp h.1 with hh | hh
          · exfalso
            injection hh with h2 h3
            subst h3
            exact hbt h.2
          · exact hh

theorem insertRegs_append_acc (ds : List Decl) (acc : List (String × StructInfo)) :
    insertRegs ds acc = insertRegs ds [] ++ acc := by
  induction ds generalizing acc with
  | nil => rfl
  | cons d rest ih =>
    cases d with
    | gen i a =>
      show insertRegs rest acc = insertRegs rest [] ++ acc
      exact ih acc
    | reg info =>
      show insertRegs rest ((info.name, info) :: acc)
        = insertRegs rest ((info.name, info) :: []) ++ acc
      rw [ih ((info.name, info) :: acc), ih ((info.name, info) :: [])]
      rw [List.append_assoc]
      rfl

theorem regLookup_append (n : String) (xs ys : List (String × StructInfo)) :
    regLookup n (xs ++ ys)
      = match regLookup n xs with
        | some v => some v
        | none => regLookup n ys := by
  induction xs with
  | nil => rfl
  | cons e rest ih =>
    obtain ⟨k, v⟩ := e
    show (if k = n then some v else regLookup n (rest ++ ys))
      = match (if k = n then some v else regLookup n rest) with
        | some w => some w
        | none => regLookup n ys
    by_cases hk : k = n
    · rw [if_pos hk, if_pos hk]
    · rw [if_neg hk, if_neg hk]
      exact ih

theorem mem_regNames_of_reg {ds : List Decl} {v : StructInfo} (h : Decl.reg v ∈ ds) :
    v.name ∈ regNames ds := by
  unfold regNames
  rw [List.mem_filterMap]
  exact ⟨Decl.reg v, h, rfl⟩

theorem reg_mem_name_unique (ds : List Decl) (hnodup : (regNames ds).Nodup)
    (v w : StructInfo) (hv : Decl.reg v ∈ ds) (hw : Decl.reg w ∈ ds)
    (hname : v.name = w.name) : v = w := by
  induction ds with
  | nil => cases hv
  | cons d rest ih =>
    cases d with
    | gen i a =>
      have hnr : (regNames rest).Nodup := by simpa [regNames] using hnodup
      rcases List.mem_cons.mp hv with hh | hh
      · cases hh
      rcases List.mem_cons.mp hw with hh2 | hh2
      · cases hh2
      exact ih hnr hh hh2
    | reg info =>
      have hn2 : (info.name :: regNames rest).Nodup := hnodup
      rcases List.mem_cons.mp hv with hh | hh
      · rcases List.mem_cons.mp hw with hh2 | hh2
        · injection hh with h1
          injection hh2 with h2
          rw [h1, h2]
        · exfalso
          injection hh with h1
          apply (List.nodup_cons.mp hn2).1
          rw [show info.name = w.name from by rw [← h1, hname]]
          exact mem_regNames_of_reg hh2
      · rcases List.mem_cons.mp hw with hh2 | hh2
        · exfalso
          injection hh2 with h2
          apply (List.nodup_cons.mp hn2).1
          rw [show info.name = v.name from by rw [← h2, ← hname]]
          exact mem_regNames_of_reg hh
        · exact ih (List.nodup_cons.mp hn2).2 hh hh2

theorem regLookup_insertRegs_nil_iff (ds : List Decl) (n : String) :
    ∀ v : StructInfo, (regNames ds).Nodup →
      (regLookup n (insertRegs ds []) = some v ↔ (Decl.reg v ∈ ds ∧ v.name = n)) := by
  induction ds with
  | nil =>
    intro v _
    constructor
    · intro h
      cases h
    · intro h
      cases h.1
  | cons d rest ih =>
    intro v hnodup
    cases d with
    | gen i a =>
      have hnr : (regNames rest).Nodup := by simpa [regNames] using hnodup
      show regLookup n (insertRegs rest []) = some v ↔ _
      rw [ih v hnr]
      constructor
      · intro h
        exact ⟨List.mem_cons_of_mem _ h.1, h.2⟩
      · intro h
        refine ⟨?_, h.2⟩
        rcases List.mem_cons.mp h.1 with hh | hh
        · cases hh
        · exact hh
    | reg info =>
      have hn2 : (info.name :: regNames rest).Nodup := hnodup
      have hnr : (regNames rest).Nodup := (List.nodup_cons.mp hn2).2
      show regLookup n (insertRegs rest ((info.name, info) :: [])) = some v ↔ _
      rw [insertRegs_append_acc rest ((info.name, info) :: []), regLookup_append]
      cases hx : regLookup n (insertRegs rest []) with
      | some w =>
        have hw := (ih w hnr).mp hx
        constructor
        · intro h
          injection h with h1
          subst h1
          exact ⟨List.mem_cons_of_mem _ hw.1, hw.2⟩
        · intro h
          rcases List.mem_cons.mp h.1 with hh | hh
          · exfalso
            injection hh with h1
            apply (List.nodup_cons.mp hn2).1
            rw [show info.name = n from by rw [← h1]; exact h.2]
            rw [← hw.2]
            exact mem_regNames_of_reg hw.1
          · rw [reg_mem_name_unique rest hnr w v hw.1 hh (by rw [hw.2, h.2])]
      | none =>
        show regLookup n ((info.name, info) :: []) = some v ↔ _
        show (if info.name = n then some info else regLookup n []) = some v ↔ _
        by_cases hni : info.name = n
        · rw [if_pos hni]
          constructor
          · intro h
            injection h with h1
            subst h1
            exact ⟨List.mem_cons_self _ _, hni⟩
          · intro h
            rcases List.mem_cons.mp h.1 with hh | hh
            · injection hh with h1
              rw [h1]
            · exfalso
              have := (ih v hnr).mpr ⟨hh, h.2⟩
              rw [hx] at this
              cases this
        · rw [if_neg hni]
          constructor
          · intro h
            cases h
          · intro h
            exfalso
            rcases List.mem_cons.mp h.1 with hh | hh
            · injection hh with h1
              rw [← h1] at hni
              exact hni h.2
            · have := (ih v hnr).mpr ⟨hh, h.2⟩
              rw [hx] at this
              cases this

theorem insertRegs_lookup_perm (dsA dsB : List Decl) (h : dsA.Perm dsB)
    (hnodup : (regNames dsA).Nodup) (n : String) :
    regLookup n (insertRegs dsA []) = regLookup n (insertRegs dsB []) := by
  have hpermN : (regNames dsA).Perm (regNames dsB) := h.filterMap _
  have hnodupB : (regNames dsB).Nodup := hpermN.nodup hnodup
  cases hA : regLookup n (insertRegs dsA []) with
  | some v =>
    have hv := (regLookup_insertRegs_nil_iff dsA n v hnodup).mp hA
    symm
    exact (regLookup_insertRegs_nil_iff dsB n v hnodupB).mpr ⟨h.subset hv.1, hv.2⟩
  | none =>
    cases hB : regLookup n (insertRegs dsB []) with
    | none => rfl
    | some v =>
      exfalso
      have hv := (regLookup_insertRegs_nil_iff dsB n v hnodupB).mp hB
      have := (regLookup_insertRegs_nil_iff dsA n v hnodup).mpr ⟨h.symm.subset hv.1, hv.2⟩
      rw [hA] at this
      cases this

/-- C8: permuting the declaration sequence leaves every target file's final
content unchanged, provided (amended) each target path receives at most one
generation request, no record name is registered twice, and every flatten
dependency of a generation request is declared somewhere in the sequence. -/
theorem c8_order_independence_amended (dsA dsB : List Decl) (fs0 : FileSystem) (t : String)
    (hperm : dsA.Perm dsB)
    (hTargets : (declTargets dsA).Nodup)
    (hNames : (regNames dsA).Nodup)
    (hDeps : depsDeclared dsA) :
    (runDecls (initState fs0) dsA).fs t = (runDecls (initState fs0) dsB).fs t := by
  have hpermN : (regNames dsA).Perm (regNames dsB) := hperm.filterMap _
  have hpermT : (declTargets dsA).Perm (declTargets dsB) := hperm.filterMap _
  have hNamesB : (regNames dsB).Nodup := hpermN.nodup hNames
  have hTargetsB : (declTargets dsB).Nodup := hpermT.nodup hTargets
  have hDepsB : depsDeclared dsB := by
    intro d hd dep hdep
    exact hpermN.subset (hDeps d (hperm.symm.subset hd) dep hdep)
  have hcountA : countGen dsA t ≤ 1 := by
    unfold countGen
    exact List.nodup_iff_count_le_one.mp hTargets t
  have hcountB : countGen dsB t ≤ 1 := by
    unfold countGen
    exact List.nodup_iff_count_le_one.mp hTargetsB t
  have hcharA := run_fs_characterization dsA (initState fs0) t
    (by intro e he; simp [initState] at he)
    (by intro e he; simp [initState] at he)
    hNames
    (by intro n hn; rfl)
    (by
      show countGen dsA t + (List.length []) ≤ 1
      simp only [List.length_nil]
      omega)
    (by intro pg hpg; simp [reqsFor, initState] at hpg)
    (by
      intro i a hga dep hdep
      right
      have hmem : Decl.gen i a ∈ dsA := ((genFor_eq_some_iff dsA t i a hcountA).mp hga).1
      exact hDeps (Decl.gen i a) hmem dep hdep)
  have hcharB := run_fs_characterization dsB (initState fs0) t
    (by intro e he; simp [initState] at he)
    (by intro e he; simp [initState] at he)
    hNamesB
    (by intro n hn; rfl)
    (by
      show countGen dsB t + (List.length []) ≤ 1
      simp only [List.length_nil]
      omega)
    (by intro pg hpg; simp [reqsFor, initState] at hpg)
    (by
      intro i a hgb dep hdep
      right
      have hmem : Decl.gen i a ∈ dsB := ((genFor_eq_some_iff dsB t i a hcountB).mp hgb).1
      exact hDepsB (Decl.gen i a) hmem dep hdep)
  rw [hcharA, hcharB]
  have hgf : genFor dsA t = genFor dsB t := by
    cases hga : genFor dsA t with
    | none =>
      cases hgb : genFor dsB t with
      | none => rfl
      | some ia =>
        exfalso
        obtain ⟨i, a⟩ := ia
        have h := (genFor_eq_some_iff dsB t i a hcountB).mp hgb
        have hc := (genFor_eq_some_iff dsA t i a hcountA).mpr ⟨hperm.symm.subset h.1, h.2⟩
        rw [hga] at hc
        cases hc
    | some ia =>
      obtain ⟨i, a⟩ := ia
      have h := (genFor_eq_some_iff dsA t i a hcountA).mp hga
      have hb := (genFor_eq_some_iff dsB t i a hcountB).mpr ⟨hperm.subset h.1, h.2⟩
      rw [hb]
  rw [hgf]
  cases hg : genFor dsB t with
  | none => rfl
  | some ia =>
    obtain ⟨i, a⟩ := ia
    show finalFsVal (insertRegs dsA []) (fs0 t) i a = finalFsVal (insertRegs dsB []) (fs0 t) i a
    unfold finalFsVal
    rw [expand_eq_of_lookups (insertRegs dsA []) (insertRegs dsB []) i
      (fun f _ _ => insertRegs_lookup_perm dsA dsB hperm hNames f.field_type)]

def wFlatAttrs : ClapAttrs :=
  ⟨none, none, none, none, none, true, false, false, none, none, none⟩

def wMain : StructInfo := ⟨"Main", [⟨"a", "A", none, wFlatAttrs, "Main"⟩], none⟩

def wDsA : List Decl := [Decl.gen wMain ⟨"T", OutputFormat.Flat⟩, Decl.reg cexS1]

def wDsB : List Decl := [Decl.reg cexS1, Decl.gen wMain ⟨"T", OutputFormat.Flat⟩]

theorem c8_order_independence_amended_witness :
    (runDecls (initState (fun _ => none)) wDsA).fs "T"
      = (runDecls (initState (fun _ => none)) wDsB).fs "T" :=
  c8_order_independence_amended wDsA wDsB (fun _ => none) "T"
    (by decide) (by decide) (by decide)
    (by
      intro d hd dep hdep
      rcases List.mem_cons.mp hd with h | h
      · subst h
        have hda : dep = "A" := by
          simpa [genDeps, flatDeps, wMain, wFlatAttrs] using hdep
        rw [hda]
        decide
      · rcases List.mem_cons.mp h with h2 | h2
        · subst h2
          simp [genDeps] at hdep
        · cases h2)
